import Mathlib

/-!
Verification of the TSP genetic-algorithm engine (`tsp.py` and
`TSP_Genetic_Algorithm.py`).

The Python code is shallowly embedded: cities are records with a numeric
name and rational coordinates, Python floats are modelled by real numbers,
Python lists by Lean lists, and every call to `random.randrange` /
`random.randint` is modelled by an explicit parameter together with the
range facts that `randrange` guarantees.  Functions that mutate their
arguments in place (`mutate_swap`, the endpoint-stripping loop in
`crossover`) are modelled by returning the updated population explicitly.
-/

/-- A city record, as produced by `read_tsp_file`: `City = namedtuple("City", "name x y")`.
The program compares names with `int(...)`, so the name is modelled as the
natural number it parses to. -/
structure City where
  name : ℕ
  x : ℚ
  y : ℚ
deriving DecidableEq, Repr

/-- Default used to totalise Python indexing expressions; never reachable in
the in-range situations the theorems speak about. -/
def dummyCity : City := ⟨0, 0, 0⟩

/-- The Euclidean distance `math.hypot(c1.x - c2.x, c1.y - c2.y)` computed by
`get_distance` on a cache miss. -/
noncomputable def euclid (c1 c2 : City) : ℝ :=
  Real.sqrt (((c1.x : ℝ) - (c2.x : ℝ)) ^ 2 + ((c1.y : ℝ) - (c2.y : ℝ)) ^ 2)

/-- Value semantics of `get_distance c1 c2`: `0.0` when the two cities are
equal (the early-return in the source), otherwise the Euclidean distance.
The memoisation cache only stores values produced by `euclid`, so the value
returned by the stateful `get_distance` (modelled below) from an initially
empty cache is exactly this function; `fitness_function` is defined over
these values. -/
noncomputable def gdist (c1 c2 : City) : ℝ :=
  if c1 = c2 then 0 else euclid c1 c2

theorem gdist_self (c : City) : gdist c c = 0 := by
  simp [gdist]

theorem euclid_comm (c1 c2 : City) : euclid c1 c2 = euclid c2 c1 := by
  unfold euclid
  ring_nf

theorem gdist_comm (c1 c2 : City) : gdist c1 c2 = gdist c2 c1 := by
  unfold gdist
  by_cases h : c1 = c2
  · simp [h]
  · rw [if_neg h, if_neg (fun hc => h hc.symm), euclid_comm]

/-- Python `cities[i]` for in-range `i`. -/
def cityAt (c : List City) (i : ℕ) : City := c.getD i dummyCity

/-- Python `cities[0]`. -/
def hd (c : List City) : City := cityAt c 0

/-- Python `cities[len(cities)-1]`. -/
def lst (c : List City) : City := cityAt c (c.length - 1)

/-- The fitness function of `tsp.py` (lines 113-123):
`for i in range(len(cities)): total_distance += get_distance(cities[i-1], cities[i])`.
For `i = 0` the Python index `i-1` is `-1`, i.e. the last element; this is
modelled by the index `(i + n - 1) % n`. -/
noncomputable def fitness_function (cities : List City) : ℝ :=
  (List.range cities.length).foldl
    (fun td i =>
      td + gdist (cityAt cities ((i + cities.length - 1) % cities.length)) (cityAt cities i))
    0

/-- Sum of the lengths of the consecutive edges of an (open) path; helper for
stating the specification's closed-cycle reading of the fitness. -/
noncomputable def pathSum : List City → ℝ
  | [] => 0
  | [_] => 0
  | a :: b :: t => gdist a b + pathSum (b :: t)

/-- Specification-side definition (Modelled from the spec, section 4.2):
"total length of the tour interpreted as a closed cycle": the edge list of a
cycle pairs each city with its successor, the successor of the last city
being the first, i.e. the pairs of `c` with `c.rotate 1`. -/
noncomputable def closed_tour_length (c : List City) : ℝ :=
  (List.zipWith gdist c (c.rotate 1)).sum

theorem foldl_add_map (f : ℕ → ℝ) :
    ∀ (l : List ℕ) (a : ℝ), l.foldl (fun acc i => acc + f i) a = a + (l.map f).sum := by
  intro l
  induction l with
  | nil => intro a; simp
  | cons x xs ih =>
    intro a
    simp only [List.foldl_cons, List.map_cons, List.sum_cons]
    rw [ih]
    ring

theorem map_range_sum (f : ℕ → ℝ) :
    ∀ n : ℕ, ((List.range n).map f).sum = ∑ i ∈ Finset.range n, f i := by
  intro n
  induction n with
  | zero => simp
  | succ m ih =>
    rw [List.range_succ, Finset.sum_range_succ, List.map_append, List.sum_append, ih]
    simp

theorem fitness_eq_sum (c : List City) :
    fitness_function c =
      ∑ i ∈ Finset.range c.length,
        gdist (cityAt c ((i + c.length - 1) % c.length)) (cityAt c i) := by
  rw [fitness_function, foldl_add_map, map_range_sum]
  ring

theorem cityAt_cons_succ (a : City) (t : List City) (i : ℕ) :
    cityAt (a :: t) (i + 1) = cityAt t i := by
  simp [cityAt]

theorem cityAt_cons_zero (a : City) (t : List City) : cityAt (a :: t) 0 = a := rfl

theorem pathSum_eq_sum (c : List City) :
    pathSum c = ∑ i ∈ Finset.range (c.length - 1), gdist (cityAt c i) (cityAt c (i + 1)) := by
  induction c with
  | nil => simp [pathSum]
  | cons a t ih =>
    cases t with
    | nil => simp [pathSum]
    | cons b s =>
      rw [pathSum]
      rw [ih]
      have hlen : (a :: b :: s).length - 1 = (b :: s).length - 1 + 1 := by
        simp
      rw [hlen, Finset.sum_range_succ']
      simp only [cityAt_cons_succ, cityAt_cons_zero]
      ring

/-- Core characterisation of `fitness_function`: on a non-empty chromosome it
is the open-path length plus the wrap-around (last-to-first) edge. -/
theorem fitness_char (c : List City) (h : c ≠ []) :
    fitness_function c = pathSum c + gdist (lst c) (hd c) := by
  obtain ⟨n, hn⟩ : ∃ n, c.length = n + 1 := by
    cases c with
    | nil => exact absurd rfl h
    | cons a t => exact ⟨t.length, rfl⟩
  rw [fitness_eq_sum, pathSum_eq_sum, hn, Finset.sum_range_succ']
  have hmod0 : (0 + (n + 1) - 1) % (n + 1) = n := by
    simp [Nat.mod_eq_of_lt]
  have hmod : ∀ i, i < n → (i + 1 + (n + 1) - 1) % (n + 1) = i := by
    intro i hi
    have : i + 1 + (n + 1) - 1 = i + (n + 1) := by omega
    rw [this, Nat.add_mod_right, Nat.mod_eq_of_lt (by omega)]
  rw [Finset.sum_congr rfl (fun i hi => by
    rw [hmod i (Finset.mem_range.mp hi)])]
  have hlst : lst c = cityAt c n := by
    rw [lst, hn]
    norm_num
  have hhd : hd c = cityAt c 0 := rfl
  rw [hmod0, hlst, hhd]
  norm_num

theorem lst_cons_cons (a b : City) (t : List City) : lst (a :: b :: t) = lst (b :: t) := by
  simp only [lst, cityAt, List.length_cons]
  have : b :: t ≠ [] := by simp
  simp [List.getD]

theorem lst_append_single (l : List City) (a : City) : lst (l ++ [a]) = a := by
  simp only [lst, cityAt, List.length_append]
  have h : l.length + 1 - 1 = l.length := by omega
  simp only [List.length_singleton, h]
  rw [List.getD_eq_getElem?_getD]
  rw [List.getElem?_append_right (le_refl l.length)]
  simp

theorem hd_cons (a : City) (t : List City) : hd (a :: t) = a := rfl

theorem pathSum_append_single (l : List City) (a : City) (h : l ≠ []) :
    pathSum (l ++ [a]) = pathSum l + gdist (lst l) a := by
  induction l with
  | nil => exact absurd rfl h
  | cons b t ih =>
    cases t with
    | nil => simp [pathSum, lst, cityAt]
    | cons c s =>
      have hne : c :: s ≠ [] := by simp
      have h1 : (b :: c :: s) ++ [a] = b :: ((c :: s) ++ [a]) := by simp
      have h2 : (c :: s) ++ [a] = c :: (s ++ [a]) := by simp
      rw [h1, h2, pathSum, ← h2, ih hne, lst_cons_cons, pathSum]
      ring

theorem pathSum_cons (a : City) (t : List City) (h : t ≠ []) :
    pathSum (a :: t) = gdist a (hd t) + pathSum t := by
  cases t with
  | nil => exact absurd rfl h
  | cons b s => rw [pathSum, hd_cons]

theorem lst_cons (a : City) (t : List City) (h : t ≠ []) : lst (a :: t) = lst t := by
  cases t with
  | nil => exact absurd rfl h
  | cons b s => exact lst_cons_cons a b s

theorem hd_append (l l2 : List City) (h : l ≠ []) : hd (l ++ l2) = hd l := by
  cases l with
  | nil => exact absurd rfl h
  | cons a t => rfl

theorem lst_reverse (l : List City) (h : l ≠ []) : lst l.reverse = hd l := by
  cases l with
  | nil => exact absurd rfl h
  | cons a t =>
    rw [List.reverse_cons, lst_append_single, hd_cons]

theorem hd_reverse (l : List City) (h : l ≠ []) : hd l.reverse = lst l := by
  have h2 : l.reverse ≠ [] := by simp [h]
  have := lst_reverse l.reverse h2
  rw [List.reverse_reverse] at this
  rw [← this]

theorem pathSum_reverse (l : List City) : pathSum l.reverse = pathSum l := by
  induction l with
  | nil => rfl
  | cons b t ih =>
    by_cases ht : t = []
    · subst ht; rfl
    · have htr : t.reverse ≠ [] := by simp [ht]
      rw [List.reverse_cons, pathSum_append_single t.reverse b htr, ih,
        lst_reverse t ht, pathSum_cons b t ht, gdist_comm]
      ring

theorem fitness_rotate_one (c : List City) (h : c ≠ []) :
    fitness_function (c.rotate 1) = fitness_function c := by
  cases c with
  | nil => exact absurd rfl h
  | cons a t =>
    have hrot : (a :: t).rotate 1 = t ++ [a] := by
      rw [List.rotate_cons_succ, List.rotate_zero]
    by_cases ht : t = []
    · subst ht; rw [hrot]; rfl
    · have hta : t ++ [a] ≠ [] := by simp
      rw [hrot, fitness_char (t ++ [a]) hta, pathSum_append_single t a ht,
        lst_append_single, hd_append t [a] ht,
        fitness_char (a :: t) (by simp), pathSum_cons a t ht, lst_cons a t ht, hd_cons]
      ring

theorem fitness_rotate (c : List City) (h : c ≠ []) (k : ℕ) :
    fitness_function (c.rotate k) = fitness_function c := by
  induction k with
  | zero => rw [List.rotate_zero]
  | succ m ih =>
    have hr : c.rotate (m + 1) = (c.rotate m).rotate 1 := by
      rw [List.rotate_rotate]
    have hne : c.rotate m ≠ [] := by
      intro hc
      have := List.length_rotate c m
      rw [hc] at this
      simp at this
      exact h (List.length_eq_zero.mp this.symm)
    rw [hr, fitness_rotate_one (c.rotate m) hne, ih]

theorem fitness_reverse (c : List City) (h : c ≠ []) :
    fitness_function c.reverse = fitness_function c := by
  cases c with
  | nil => exact absurd rfl h
  | cons a t =>
    by_cases ht : t = []
    · subst ht; rfl
    · have htr : t.reverse ≠ [] := by simp [ht]
      have hne : t.reverse ++ [a] ≠ [] := by simp
      rw [List.reverse_cons, fitness_char (t.reverse ++ [a]) hne,
        pathSum_append_single t.reverse a htr, lst_append_single,
        hd_append t.reverse [a] htr, pathSum_reverse, lst_reverse t ht, hd_reverse t ht,
        fitness_char (a :: t) (by simp), pathSum_cons a t ht, lst_cons a t ht, hd_cons,
        gdist_comm (hd t) a, gdist_comm a (lst t)]
      ring

theorem zipWith_tail_sum (l : List City) (z : City) (h : l ≠ []) :
    (List.zipWith gdist l (l.tail ++ [z])).sum = pathSum l + gdist (lst l) z := by
  induction l with
  | nil => exact absurd rfl h
  | cons b t ih =>
    cases t with
    | nil => simp [pathSum, lst, cityAt]
    | cons c s =>
      have h1 : (b :: c :: s).tail ++ [z] = c :: (s ++ [z]) := by simp
      rw [h1, List.zipWith_cons_cons, List.sum_cons]
      have h2 : (c :: s).tail ++ [z] = s ++ [z] := by simp
      rw [← h2, ih (by simp), pathSum, lst_cons_cons]
      ring

/-- C2: for every non-empty chromosome, `fitness_function` returns the total
length of the tour interpreted as a closed cycle: the sum of
`distance(chromosome[i-1], chromosome[i])` over all positions with
wrap-around indexing, counting the last-to-first edge exactly once. -/
theorem claim_C2 (c : List City) (h : c ≠ []) :
    fitness_function c = closed_tour_length c := by
  cases c with
  | nil => exact absurd rfl h
  | cons a t =>
    have hrot : (a :: t).rotate 1 = (a :: t).tail ++ [a] := by
      rw [List.rotate_cons_succ, List.rotate_zero]
      rfl
    rw [closed_tour_length, hrot, zipWith_tail_sum (a :: t) a (by simp),
      fitness_char (a :: t) (by simp)]
    rfl

/-- Witness for C2 at a concrete 3-city chromosome. -/
theorem claim_C2_witness :
    ([⟨1, 0, 0⟩, ⟨2, 1, 0⟩, ⟨3, 2, 2⟩] : List City) ≠ [] ∧
      fitness_function [⟨1, 0, 0⟩, ⟨2, 1, 0⟩, ⟨3, 2, 2⟩] =
        closed_tour_length [⟨1, 0, 0⟩, ⟨2, 1, 0⟩, ⟨3, 2, 2⟩] :=
  ⟨by simp, claim_C2 [⟨1, 0, 0⟩, ⟨2, 1, 0⟩, ⟨3, 2, 2⟩] (by simp)⟩

/-- C7: for every non-empty chromosome, the fitness is invariant under every
rotation of the starting point and under full reversal. -/
theorem claim_C7 (c : List City) (h : c ≠ []) :
    (∀ k, fitness_function (c.rotate k) = fitness_function c) ∧
      fitness_function c.reverse = fitness_function c :=
  ⟨fitness_rotate c h, fitness_reverse c h⟩

/-- Witness for C7 at a concrete 3-city chromosome, rotation by 2. -/
theorem claim_C7_witness :
    ([⟨1, 0, 0⟩, ⟨2, 1, 0⟩, ⟨3, 2, 2⟩] : List City) ≠ [] ∧
      fitness_function (([⟨1, 0, 0⟩, ⟨2, 1, 0⟩, ⟨3, 2, 2⟩] : List City).rotate 2) =
        fitness_function [⟨1, 0, 0⟩, ⟨2, 1, 0⟩, ⟨3, 2, 2⟩] ∧
      fitness_function ([⟨1, 0, 0⟩, ⟨2, 1, 0⟩, ⟨3, 2, 2⟩] : List City).reverse =
        fitness_function [⟨1, 0, 0⟩, ⟨2, 1, 0⟩, ⟨3, 2, 2⟩] :=
  ⟨by simp,
    (claim_C7 [⟨1, 0, 0⟩, ⟨2, 1, 0⟩, ⟨3, 2, 2⟩] (by simp)).1 2,
    (claim_C7 [⟨1, 0, 0⟩, ⟨2, 1, 0⟩, ⟨3, 2, 2⟩] (by simp)).2⟩

/-- C10: appending a duplicate of the first city (as the driver does before
evaluating the best path) does not change the fitness, because the distance
of a city to itself is 0. -/
theorem claim_C10 (c : List City) (h : c ≠ []) :
    fitness_function (c ++ [hd c]) = fitness_function c := by
  have hne : c ++ [hd c] ≠ [] := by simp
  rw [fitness_char (c ++ [hd c]) hne, pathSum_append_single c (hd c) h,
    lst_append_single, hd_append c [hd c] h, gdist_self,
    fitness_char c h]
  ring

/-- Witness for C10 at a concrete 3-city chromosome. -/
theorem claim_C10_witness :
    ([⟨1, 0, 0⟩, ⟨2, 1, 0⟩, ⟨3, 2, 2⟩] : List City) ≠ [] ∧
      fitness_function
          ([⟨1, 0, 0⟩, ⟨2, 1, 0⟩, ⟨3, 2, 2⟩] ++ [hd [⟨1, 0, 0⟩, ⟨2, 1, 0⟩, ⟨3, 2, 2⟩]]) =
        fitness_function [⟨1, 0, 0⟩, ⟨2, 1, 0⟩, ⟨3, 2, 2⟩] :=
  ⟨by simp, claim_C10 [⟨1, 0, 0⟩, ⟨2, 1, 0⟩, ⟨3, 2, 2⟩] (by simp)⟩

/-- A cache entry: `Edge = namedtuple("Edge", "city1 city2 distance")`. -/
structure CEdge where
  city1 : ℕ
  city2 : ℕ
  distance : ℝ

/-- The `CACHE["D"]` dictionary, keyed by the canonical `<lower>-<upper>` name
pair (modelled as the ordered pair of the two numeric names). -/
def DCache := List ((ℕ × ℕ) × CEdge)

/-- The canonical cache key of `get_distance`:
`name = c1.name + "-" + c2.name if int(c1.name) < int(c2.name) else ...`. -/
def ckey (c1 c2 : City) : ℕ × ℕ :=
  if c1.name < c2.name then (c1.name, c2.name) else (c2.name, c1.name)

/-- Stateful model of `get_distance` (tsp.py lines 90-111): returns `0.0`
immediately when the two cities are equal; otherwise orders the two names
into a canonical key, computes and stores the Euclidean distance when the
key is absent, and returns the distance stored under the key. -/
noncomputable def get_distance (c1 c2 : City) (cache : DCache) : ℝ × DCache :=
  if c1 = c2 then (0, cache)
  else
    match List.lookup (ckey c1 c2) cache with
    | some e => (e.distance, cache)
    | none => (euclid c1 c2, (ckey c1 c2, ⟨c1.name, c2.name, euclid c1 c2⟩) :: cache)

theorem ckey_comm (c1 c2 : City) : ckey c1 c2 = ckey c2 c1 := by
  unfold ckey
  rcases lt_trichotomy c1.name c2.name with h | h | h
  · rw [if_pos h, if_neg (by omega)]
  · rw [h]
  · rw [if_neg (by omega), if_pos h]

theorem get_distance_hit (c1 c2 : City) (σ : DCache) (e : CEdge) (h : c1 ≠ c2)
    (hlk : List.lookup (ckey c1 c2) σ = some e) :
    get_distance c1 c2 σ = (e.distance, σ) := by
  rw [get_distance, if_neg h, hlk]

theorem get_distance_miss (c1 c2 : City) (σ : DCache) (h : c1 ≠ c2)
    (hlk : List.lookup (ckey c1 c2) σ = none) :
    get_distance c1 c2 σ =
      (euclid c1 c2, (ckey c1 c2, ⟨c1.name, c2.name, euclid c1 c2⟩) :: σ) := by
  rw [get_distance, if_neg h, hlk]

/-- From the empty cache, the stateful `get_distance` returns exactly the pure
value `gdist` that `fitness_function` is defined over. -/
theorem get_distance_empty_val (c1 c2 : City) :
    (get_distance c1 c2 ([] : DCache)).1 = gdist c1 c2 := by
  by_cases h : c1 = c2
  · subst h; rw [get_distance, if_pos rfl, gdist, if_pos rfl]
  · rw [get_distance_miss c1 c2 [] h (by rfl), gdist, if_neg h]

/-- C8: `get_distance` is symmetric in its two city arguments (for any cache
state), calling it twice in succession returns the identical value with the
cache populated by the first call and left unchanged by the second, and
`get_distance a a` returns `0.0` without touching the cache. -/
theorem claim_C8 (a b : City) (σ : DCache) (hname : a ≠ b → a.name ≠ b.name) :
    (get_distance a b σ).1 = (get_distance b a σ).1 ∧
      (get_distance a b (get_distance a b σ).2).1 = (get_distance a b σ).1 ∧
      (get_distance a b (get_distance a b σ).2).2 = (get_distance a b σ).2 ∧
      get_distance a a σ = (0, σ) := by
  have hself : ∀ c : City, ∀ τ : DCache, get_distance c c τ = (0, τ) := by
    intro c τ
    rw [get_distance, if_pos rfl]
  by_cases h : a = b
  · subst h
    refine ⟨rfl, ?_, ?_, hself a σ⟩
    · rw [hself a σ]
      rw [hself a σ]
    · rw [hself a σ]
      rw [hself a σ]
  · have h' : b ≠ a := fun hc => h hc.symm
    rcases hlk : List.lookup (ckey a b) σ with _ | e
    · have hlk' : List.lookup (ckey b a) σ = none := by rw [← ckey_comm]; exact hlk
      have h1 := get_distance_miss a b σ h hlk
      have h2 := get_distance_miss b a σ h' hlk'
      have hcons : List.lookup (ckey a b)
          ((ckey a b, (⟨a.name, b.name, euclid a b⟩ : CEdge)) :: σ) =
          some ⟨a.name, b.name, euclid a b⟩ := by
        simp [List.lookup]
      refine ⟨?_, ?_, ?_, hself a σ⟩
      · rw [h1, h2]
        exact euclid_comm a b
      · rw [h1]
        rw [get_distance_hit a b _ ⟨a.name, b.name, euclid a b⟩ h hcons]
      · rw [h1]
        rw [get_distance_hit a b _ ⟨a.name, b.name, euclid a b⟩ h hcons]
    · have hlk' : List.lookup (ckey b a) σ = some e := by rw [← ckey_comm]; exact hlk
      have h1 := get_distance_hit a b σ e h hlk
      have h2 := get_distance_hit b a σ e h' hlk'
      refine ⟨?_, ?_, ?_, hself a σ⟩
      · rw [h1, h2]
      · rw [h1]
        rw [get_distance_hit a b σ e h hlk]
      · rw [h1]
        rw [get_distance_hit a b σ e h hlk]

/-- Witness for C8 at two concrete cities with distinct numeric names and the
empty cache. -/
theorem claim_C8_witness :
    ((⟨1, 0, 0⟩ : City) ≠ ⟨2, 3, 4⟩ → (⟨1, 0, 0⟩ : City).name ≠ (⟨2, 3, 4⟩ : City).name) ∧
      (get_distance ⟨1, 0, 0⟩ ⟨2, 3, 4⟩ ([] : DCache)).1 =
        (get_distance ⟨2, 3, 4⟩ ⟨1, 0, 0⟩ ([] : DCache)).1 ∧
      get_distance ⟨1, 0, 0⟩ ⟨1, 0, 0⟩ ([] : DCache) = (0, ([] : DCache)) :=
  ⟨fun _ => by decide,
    (claim_C8 ⟨1, 0, 0⟩ ⟨2, 3, 4⟩ ([] : DCache) (fun _ => by decide)).1,
    (claim_C8 ⟨1, 0, 0⟩ ⟨2, 3, 4⟩ ([] : DCache) (fun _ => by decide)).2.2.2⟩

/-- Python's simultaneous assignment
`mutated[index1], mutated[index2] = mutated[index2], mutated[index1]`:
both right-hand sides are read from the original list. -/
def list_swap (l : List City) (i j : ℕ) : List City :=
  (l.set i (l.getD j dummyCity)).set j (l.getD i dummyCity)

/-- `mutate_swap` (tsp.py lines 125-139).  `index_mut` models
`random.randrange(0, p_size-1, 1)`, `i1`/`i2` model the two distinct draws of
`random.randrange(1, m_size-1, 1)`.  Python's `mutated = pop[index_mut]`
aliases the chromosome stored in the population, so the in-place swap also
updates the population; the model returns the pair (returned chromosome,
population after the call). -/
def mutate_swap (pop : List (List City)) (index_mut i1 i2 : ℕ) :
    List City × List (List City) :=
  let mutated := list_swap (pop.getD index_mut []) i1 i2
  (mutated, pop.set index_mut mutated)

theorem getD_cons_succ' (a : City) (l : List City) (i : ℕ) (d : City) :
    (a :: l).getD (i + 1) d = l.getD i d := by
  simp

theorem swap_head_perm (t : List City) (a : City) :
    ∀ k, k < t.length → (t.getD k dummyCity :: t.set k a).Perm (a :: t) := by
  induction t with
  | nil => intro k hk; simp at hk
  | cons b s ih =>
    intro k hk
    cases k with
    | zero =>
      simp only [List.getD_cons_zero, List.set_cons_zero]
      exact List.Perm.swap a b s
    | succ m =>
      have hm : m < s.length := by simpa using hk
      simp only [List.getD_cons_succ, List.set_cons_succ]
      have p1 : (s.getD m dummyCity :: b :: s.set m a).Perm (b :: s.getD m dummyCity :: s.set m a) :=
        List.Perm.swap b (s.getD m dummyCity) (s.set m a)
      have p2 : (b :: s.getD m dummyCity :: s.set m a).Perm (b :: a :: s) := (ih m hm).cons b
      have p3 : (b :: a :: s).Perm (a :: b :: s) := List.Perm.swap a b s
      exact (p1.trans p2).trans p3

theorem list_swap_perm_lt (l : List City) (i j : ℕ) (hij : i < j) (hj : j < l.length) :
    (list_swap l i j).Perm l := by
  induction l generalizing i j with
  | nil => simp at hj
  | cons b s ih =>
    cases i with
    | zero =>
      cases j with
      | zero => omega
      | succ m =>
        have hm : m < s.length := by simpa using hj
        simp only [list_swap, List.getD_cons_succ, List.getD_cons_zero, List.set_cons_zero,
          List.set_cons_succ]
        exact swap_head_perm s b m hm
    | succ i' =>
      cases j with
      | zero => omega
      | succ j' =>
        have hij' : i' < j' := by omega
        have hj' : j' < s.length := by simpa using hj
        simp only [list_swap, List.getD_cons_succ, List.set_cons_succ]
        exact (ih i' j' hij' hj').cons b

theorem list_swap_perm (l : List City) (i j : ℕ) (hi : i < l.length) (hj : j < l.length) :
    (list_swap l i j).Perm l := by
  rcases lt_trichotomy i j with h | h | h
  · exact list_swap_perm_lt l i j h hj
  · subst h
    unfold list_swap
    rw [List.set_set]
    have hset : l.set i (l.getD i dummyCity) = l := by
      apply List.ext_getElem
      · simp
      · intro k h1 h2
        rw [List.getElem_set]
        by_cases hk : i = k
        · subst hk
          rw [if_pos rfl, List.getD_eq_getElem?_getD, List.getElem?_eq_getElem hi]
          rfl
        · rw [if_neg hk]
    rw [hset]
  · unfold list_swap
    rw [List.set_comm _ _ _ (by omega)]
    exact list_swap_perm_lt l j i h hi

/-- The chromosome returned by `mutate_swap` is a permutation of the selected
chromosome (used to preserve the population invariant in `next_gen`). -/
theorem mutate_swap_fst_perm (pop : List (List City)) (im i1 i2 : ℕ)
    (h1 : i1 < (pop.getD im []).length) (h2 : i2 < (pop.getD im []).length) :
    (mutate_swap pop im i1 i2).1.Perm (pop.getD im []) :=
  list_swap_perm _ i1 i2 h1 h2

/-- The "Correcting all mismatched lengths" loop at the top of `crossover`
(tsp.py lines 225-228): a chromosome whose first and last entries are equal
has its last entry removed (`p.pop(len(p)-1)`), in place. -/
def strip_closed (p : List City) : List City :=
  if hd p = lst p then p.dropLast else p

/-- On a duplicate-free chromosome with at least two cities (an open
permutation), the endpoint-stripping loop of `crossover` changes nothing. -/
theorem strip_closed_id (p : List City) (hnd : p.Nodup) (hlen : 2 ≤ p.length) :
    strip_closed p = p := by
  rw [strip_closed, if_neg]
  intro hc
  have h0 : 0 < p.length := by omega
  have hlast : p.length - 1 < p.length := by omega
  have hne : (0 : ℕ) ≠ p.length - 1 := by omega
  apply hne
  have hget : p[0] = p[p.length - 1] := by
    have e0 : hd p = p[0] := by
      rw [hd, cityAt, List.getD_eq_getElem?_getD, List.getElem?_eq_getElem h0]
      rfl
    have e1 : lst p = p[p.length - 1] := by
      rw [lst, cityAt, List.getD_eq_getElem?_getD, List.getElem?_eq_getElem hlast]
      rfl
    rw [← e0, ← e1, hc]
  exact (List.Nodup.getElem_inj_iff hnd).mp hget

/-- `find_best_path` (tsp.py lines 287-297): linear scan keeping the first
chromosome of strictly smallest fitness below the initial bound `99999.9`. -/
noncomputable def find_best_path (pop : List (List City)) : List City :=
  (pop.foldl
    (fun s i => if fitness_function i < s.1 then (fitness_function i, i) else s)
    ((99999.9 : ℝ), ([] : List City))).2

theorem find_best_path_aux (pop : List (List City)) :
    ∀ (h : ℝ) (b : List City),
      let r := pop.foldl
        (fun s i => if fitness_function i < s.1 then (fitness_function i, i) else s) (h, b)
      r.1 ≤ h ∧ (∀ c ∈ pop, r.1 ≤ fitness_function c) ∧
        (r = (h, b) ∨ (r.2 ∈ pop ∧ r.1 = fitness_function r.2)) := by
  induction pop with
  | nil => intro h b; exact ⟨le_refl h, by simp, Or.inl rfl⟩
  | cons a t ih =>
    intro h b
    simp only [List.foldl_cons]
    by_cases hc : fitness_function a < h
    · rw [if_pos hc]
      obtain ⟨ih1, ih2, ih3⟩ := ih (fitness_function a) a
      refine ⟨le_trans ih1 (le_of_lt hc), ?_, ?_⟩
      · intro c hcm
        rcases List.mem_cons.mp hcm with hca | hct
        · subst hca; exact ih1
        · exact ih2 c hct
      · rcases ih3 with he | ⟨hm, hv⟩
        · right
          rw [he]
          exact ⟨List.mem_cons_self a t, rfl⟩
        · exact Or.inr ⟨List.mem_cons_of_mem a hm, hv⟩
    · rw [if_neg hc]
      obtain ⟨ih1, ih2, ih3⟩ := ih h b
      refine ⟨ih1, ?_, ?_⟩
      · intro c hcm
        rcases List.mem_cons.mp hcm with hca | hct
        · subst hca; exact le_trans ih1 (not_lt.mp hc)
        · exact ih2 c hct
      · rcases ih3 with he | ⟨hm, hv⟩
        · exact Or.inl he
        · exact Or.inr ⟨List.mem_cons_of_mem a hm, hv⟩

/-- When some chromosome beats the `99999.9` bound, `find_best_path` returns a
member of the population of minimal fitness. -/
theorem find_best_path_min (pop : List (List City))
    (hex : ∃ c ∈ pop, fitness_function c < 99999.9) :
    find_best_path pop ∈ pop ∧
      ∀ c ∈ pop, fitness_function (find_best_path pop) ≤ fitness_function c := by
  obtain ⟨c0, hc0m, hc0⟩ := hex
  obtain ⟨h1, h2, h3⟩ := find_best_path_aux pop 99999.9 []
  rcases h3 with he | ⟨hm, hv⟩
  · exfalso
    have := h2 c0 hc0m
    rw [he] at this
    simp only at this
    linarith
  · constructor
    · exact hm
    · intro c hc
      rw [find_best_path, ← hv]
      exact h2 c hc

/-- The driver's rounding `float(str(round(bpf, 3)))` used in the stagnation
comparison (TSP_Genetic_Algorithm.py line 108), modelled as exact rounding of
the real value to 3 decimal places. -/
noncomputable def round3 (x : ℝ) : ℝ := ((round (x * 1000) : ℤ) : ℝ) / 1000

/-- The driver's "ensure complete loop" step (TSP_Genetic_Algorithm.py lines
103-105): append the first city when the path is not already closed. -/
def close_path (p : List City) : List City :=
  if hd p = lst p then p else p ++ [hd p]

/-- The mutable state of the driver's `while True` loop:
`best_path`, `tmp_path_fit`, `count`, `last_hit`. -/
structure DriverState where
  best_path : List City
  tmp_path_fit : ℝ
  count : ℕ
  last_hit : ℕ

/-- One iteration of the driver loop (TSP_Genetic_Algorithm.py lines 99-117),
parametrised by the generation `g` produced by `tsp.next_gen` in that
iteration: recompute the best path of the current generation, close it,
evaluate it, update `last_hit` when the rounded fitness changed from the
previous iteration, and advance the counter. -/
noncomputable def driver_iter (g : List (List City)) (s : DriverState) : DriverState :=
  let bp := close_path (find_best_path g)
  let bpf := fitness_function bp
  ⟨bp, bpf, s.count + 1, if round3 bpf ≠ round3 s.tmp_path_fit then s.count else s.last_hit⟩

/-- The driver state after `k` iterations of the loop, where `gens k` is the
generation produced in iteration `k`; `gens 0` is unused.  Initial state from
lines 93-98: `best_path = []`, `tmp_path_fit = 1.0`, `count = 1`,
`last_hit = 1`. -/
noncomputable def driver_run (gens : ℕ → List (List City)) : ℕ → DriverState
  | 0 => ⟨[], 1.0, 1, 1⟩
  | k + 1 => driver_iter (gens (k + 1)) (driver_run gens k)

/-- The break condition `(count - last_hit) > 1000` of the driver loop. -/
def stagnated (s : DriverState) : Prop := 1000 < s.count - s.last_hit

/-- The best fitness printed/tracked in iteration `k`: fitness of the closed
best path of generation `k`. -/
noncomputable def gen_bpf (gens : ℕ → List (List City)) (k : ℕ) : ℝ :=
  fitness_function (close_path (find_best_path (gens k)))

theorem driver_run_char (gens : ℕ → List (List City))
    (heq : ∀ k, 1 ≤ k → round3 (gen_bpf gens (k + 1)) = round3 (gen_bpf gens k)) :
    ∀ k, 1 ≤ k →
      driver_run gens k =
        ⟨close_path (find_best_path (gens k)), gen_bpf gens k, k + 1, 1⟩ := by
  intro k
  induction k with
  | zero => omega
  | succ m ih =>
    intro _
    by_cases hm : 1 ≤ m
    · have hrec : driver_run gens (m + 1) = driver_iter (gens (m + 1)) (driver_run gens m) := rfl
      rw [hrec, ih hm, driver_iter]
      have hne : ¬ round3 (fitness_function (close_path (find_best_path (gens (m + 1))))) ≠
          round3 (fitness_function (close_path (find_best_path (gens m)))) := by
        rw [not_not]
        exact heq m hm
      dsimp only [gen_bpf]
      rw [if_neg hne]
    · have hm0 : m = 0 := by omega
      subst hm0
      have hrec : driver_run gens 1 = driver_iter (gens 1) (driver_run gens 0) := rfl
      rw [hrec]
      rw [driver_iter]
      simp only [driver_run, gen_bpf, ite_self]

/-- C4: if the rounded best fitness never changes between consecutive
generations, the driver's loop reaches its break condition for the first time
after exactly `1000 + 1 = 1001` generations (`stagnation threshold` 1000 in
TSP_Genetic_Algorithm.py line 120). -/
theorem claim_C4 (gens : ℕ → List (List City))
    (heq : ∀ k, 1 ≤ k → round3 (gen_bpf gens (k + 1)) = round3 (gen_bpf gens k)) :
    stagnated (driver_run gens 1001) ∧ ∀ k ≤ 1000, ¬ stagnated (driver_run gens k) := by
  have hchar := driver_run_char gens heq
  constructor
  · rw [hchar 1001 (by omega)]
    unfold stagnated
    simp
  · intro k hk
    by_cases h1 : 1 ≤ k
    · rw [hchar k h1]
      unfold stagnated
      simp
      omega
    · have : k = 0 := by omega
      subst this
      unfold stagnated driver_run
      simp

/-- Witness for C4: a run whose generations are all the same population
trivially has frozen comparisons. -/
theorem claim_C4_witness :
    (∀ k, 1 ≤ k →
        round3 (gen_bpf (fun _ => [[dummyCity]]) (k + 1)) =
          round3 (gen_bpf (fun _ => [[dummyCity]]) k)) ∧
      stagnated (driver_run (fun _ => [[dummyCity]]) 1001) ∧
      ∀ k ≤ 1000, ¬ stagnated (driver_run (fun _ => [[dummyCity]]) k) :=
  ⟨fun _ _ => rfl,
    (claim_C4 (fun _ => [[dummyCity]]) (fun _ _ => rfl)).1,
    (claim_C4 (fun _ => [[dummyCity]]) (fun _ _ => rfl)).2⟩

/-- For cities on a horizontal line the Euclidean distance is the absolute
difference of the x coordinates; used to evaluate fitness at concrete inputs. -/
theorem gdist_collinear (a b : City) (hy : a.y = b.y) (hne : a ≠ b) :
    gdist a b = |(a.x : ℝ) - (b.x : ℝ)| := by
  rw [gdist, if_neg hne, euclid, hy]
  rw [sub_self]
  norm_num
  exact Real.sqrt_sq_eq_abs _

theorem fitness_two (a b : City) : fitness_function [a, b] = gdist a b + gdist b a := by
  rw [fitness_char [a, b] (by simp)]
  have h1 : pathSum [a, b] = gdist a b + pathSum [b] := rfl
  have h2 : pathSum [b] = 0 := rfl
  have h3 : lst [a, b] = b := rfl
  have h4 : hd [a, b] = a := rfl
  rw [h1, h2, h3, h4]
  ring

theorem fitness_three (a b c : City) :
    fitness_function [a, b, c] = gdist a b + gdist b c + gdist c a := by
  rw [fitness_char [a, b, c] (by simp)]
  have h1 : pathSum [a, b, c] = gdist a b + (gdist b c + pathSum [c]) := rfl
  have h2 : pathSum [c] = 0 := rfl
  have h3 : lst [a, b, c] = c := rfl
  have h4 : hd [a, b, c] = a := rfl
  rw [h1, h2, h3, h4]
  ring

/-- `find_best_path` on a singleton population whose chromosome beats the
initial bound returns that chromosome. -/
theorem fbp_single (c : List City) (h : fitness_function c < 99999.9) :
    find_best_path [c] = c := by
  rw [find_best_path]
  simp only [List.foldl_cons, List.foldl_nil, if_pos h]

def cityA : City := ⟨1, 0, 0⟩

def cityB : City := ⟨2, 1, 0⟩

def cityC : City := ⟨3, 5, 0⟩

theorem fit_AB : fitness_function [cityA, cityB] = 2 := by
  rw [fitness_two,
    gdist_collinear cityA cityB rfl (by decide),
    gdist_collinear cityB cityA rfl (by decide)]
  norm_num [cityA, cityB]

theorem fit_AC : fitness_function [cityA, cityC] = 10 := by
  rw [fitness_two,
    gdist_collinear cityA cityC rfl (by decide),
    gdist_collinear cityC cityA rfl (by decide)]
  norm_num [cityA, cityC]

theorem fit_ABA : fitness_function [cityA, cityB, cityA] = 2 := by
  rw [fitness_three,
    gdist_collinear cityA cityB rfl (by decide),
    gdist_collinear cityB cityA rfl (by decide),
    gdist_self]
  norm_num [cityA, cityB]

theorem fit_ACA : fitness_function [cityA, cityC, cityA] = 10 := by
  rw [fitness_three,
    gdist_collinear cityA cityC rfl (by decide),
    gdist_collinear cityC cityA rfl (by decide),
    gdist_self]
  norm_num [cityA, cityC]

/-- A concrete run of the driver: generation 1 holds a short tour, all later
generations only a longer one. -/
noncomputable def gensC3 : ℕ → List (List City) :=
  fun k => if k ≤ 1 then [[cityA, cityB]] else [[cityA, cityC]]

theorem close_AB : close_path [cityA, cityB] = [cityA, cityB, cityA] := by
  rw [close_path, if_neg (by decide)]
  rfl

theorem close_AC : close_path [cityA, cityC] = [cityA, cityC, cityA] := by
  rw [close_path, if_neg (by decide)]
  rfl

/-- C3 counterexample: the driver does not track the best fitness seen so far
across generations — with `gensC3` the tracked best fitness strictly
increases from generation 1 (tour length 2) to generation 2 (tour length 10),
refuting "the tracked best fitness never increases from one generation to the
next". -/
theorem claim_C3_counterexample :
    (driver_run gensC3 1).tmp_path_fit < (driver_run gensC3 2).tmp_path_fit := by
  have e1 : (driver_run gensC3 1).tmp_path_fit =
      fitness_function (close_path (find_best_path (gensC3 1))) := rfl
  have e2 : (driver_run gensC3 2).tmp_path_fit =
      fitness_function (close_path (find_best_path (gensC3 2))) := rfl
  have hg1 : gensC3 1 = [[cityA, cityB]] := by norm_num [gensC3]
  have hg2 : gensC3 2 = [[cityA, cityC]] := by norm_num [gensC3]
  rw [e1, e2, hg1, hg2,
    fbp_single [cityA, cityB] (by rw [fit_AB]; norm_num),
    fbp_single [cityA, cityC] (by rw [fit_AC]; norm_num),
    close_AB, close_AC, fit_ABA, fit_ACA]
  norm_num

/-- C3 amended: the driver tracks only the current generation's best: after
iteration `k+1` the stored path is the closed best path of generation `k+1`
and the stored fitness is its fitness; that path is a minimum-fitness member
of the current generation only (the tracked fitness may increase between
generations, as the counterexample shows). -/
theorem claim_C3_amended (gens : ℕ → List (List City)) (k : ℕ)
    (hex : ∃ c ∈ gens (k + 1), fitness_function c < 99999.9) :
    (driver_run gens (k + 1)).best_path = close_path (find_best_path (gens (k + 1))) ∧
      (driver_run gens (k + 1)).tmp_path_fit = gen_bpf gens (k + 1) ∧
      find_best_path (gens (k + 1)) ∈ gens (k + 1) ∧
      ∀ c ∈ gens (k + 1),
        fitness_function (find_best_path (gens (k + 1))) ≤ fitness_function c := by
  obtain ⟨hmem, hmin⟩ := find_best_path_min (gens (k + 1)) hex
  exact ⟨rfl, rfl, hmem, hmin⟩

/-- Witness for the amended C3 at a concrete single-generation population. -/
theorem claim_C3_amended_witness :
    (∃ c ∈ (fun _ : ℕ => [[cityA, cityB]]) 1, fitness_function c < 99999.9) ∧
      find_best_path ((fun _ : ℕ => [[cityA, cityB]]) 1) ∈ (fun _ : ℕ => [[cityA, cityB]]) 1 ∧
      ∀ c ∈ (fun _ : ℕ => [[cityA, cityB]]) 1,
        fitness_function (find_best_path ((fun _ : ℕ => [[cityA, cityB]]) 1)) ≤
          fitness_function c :=
  ⟨⟨[cityA, cityB], by simp, by rw [fit_AB]; norm_num⟩,
    (claim_C3_amended (fun _ => [[cityA, cityB]]) 0
      ⟨[cityA, cityB], by simp, by rw [fit_AB]; norm_num⟩).2.2.1,
    (claim_C3_amended (fun _ => [[cityA, cityB]]) 0
      ⟨[cityA, cityB], by simp, by rw [fit_AB]; norm_num⟩).2.2.2⟩

/-- Take/cons/drop characterisation of `List.insertIdx` (Python `list.insert`)
at an in-range position. -/
theorem insertIdx_eq_take_cons_drop :
    ∀ (n : ℕ) (l : List City) (a : City), n ≤ l.length →
      l.insertIdx n a = l.take n ++ a :: l.drop n := by
  intro n
  induction n with
  | zero => intro l a _; simp
  | succ m ih =>
    intro l a hlen
    cases l with
    | nil => simp at hlen
    | cons b t =>
      rw [List.insertIdx_succ_cons, ih t a (by simpa using hlen)]
      simp

/-- The reversed insertion loop of `subset_cross`
(`for x in range(random_subset-1,-1,-1): off.insert(random_start_index, sub[x])`)
splices `sub` into the list at position `s`. -/
theorem insert_fold_splice (sub : List City) :
    ∀ (k : ℕ), k ≤ sub.length → ∀ (off : List City) (s : ℕ), s ≤ off.length →
      ((List.range k).reverse).foldl
          (fun acc x => acc.insertIdx s (sub.getD x dummyCity)) off =
        off.take s ++ sub.take k ++ off.drop s := by
  intro k
  induction k with
  | zero =>
    intro _ off s hs
    simp
  | succ m ih =>
    intro hm off s hs
    have hrange : (List.range (m + 1)).reverse = m :: (List.range m).reverse := by
      rw [List.range_succ, List.reverse_append]
      rfl
    rw [hrange, List.foldl_cons]
    have hm' : m < sub.length := by omega
    have hins : off.insertIdx s (sub.getD m dummyCity) =
        off.take s ++ sub.getD m dummyCity :: off.drop s :=
      insertIdx_eq_take_cons_drop s off _ hs
    have hlen : (off.insertIdx s (sub.getD m dummyCity)).length = off.length + 1 := by
      rw [hins]
      simp only [List.length_append, List.length_take, List.length_cons, List.length_drop]
      omega
    rw [ih (by omega) _ s (by omega), hins]
    have htk : (off.take s).length = s := by
      rw [List.length_take]
      omega
    rw [List.take_left' htk, List.drop_left' htk]
    have hgetD : sub.getD m dummyCity = sub[m] := by
      rw [List.getD_eq_getElem?_getD, List.getElem?_eq_getElem hm']
      rfl
    rw [hgetD]
    have htc : List.take (m + 1) sub = List.take m sub ++ [sub[m]] :=
      (List.take_concat_get' sub m hm').symm
    rw [htc]
    simp only [List.append_assoc, List.singleton_append]

/-- `subset_cross` (tsp.py lines 195-221).  `k` models
`random_subset = random.randrange(2, int(p1_size/5), 1)` and `s` models
`random_start_index = random.randrange(0, p1_size - random_subset, 1)`;
there is one shared pair of draws for both offspring, as in the source.
Each offspring keeps the other parent's cities that are outside the copied
segment, in that parent's order, and re-inserts the segment at its original
position by the reversed insertion loop. -/
def subset_cross (parent1 parent2 : List City) (k s : ℕ) : List (List City) :=
  let p1_subset := (parent1.drop s).take k
  let p2_subset := (parent2.drop s).take k
  let off1 := parent2.filter (fun x => decide (x ∉ p1_subset))
  let off1' := ((List.range k).reverse).foldl
    (fun acc x => acc.insertIdx s (p1_subset.getD x dummyCity)) off1
  let off2 := parent1.filter (fun x => decide (x ∉ p2_subset))
  let off2' := ((List.range k).reverse).foldl
    (fun acc x => acc.insertIdx s (p2_subset.getD x dummyCity)) off2
  [off1', off2']


/-- One offspring side of `subset_cross` is a permutation of the full city
list `S`: filtering the copied segment's cities out of the other parent and
splicing the segment back in yields a permutation. -/
theorem subset_side_perm (S pa pb : List City) (k s : ℕ)
    (hS : S.Nodup) (hpa : pa.Perm S) (hpb : pb.Perm S)
    (hks : s + k ≤ pa.length) :
    (((List.range k).reverse).foldl
        (fun acc x => acc.insertIdx s (((pa.drop s).take k).getD x dummyCity))
        (pb.filter (fun x => decide (x ∉ (pa.drop s).take k)))).Perm S := by
  set sub := (pa.drop s).take k with hsubdef
  have hpa_nd : pa.Nodup := (hpa.nodup_iff).mpr hS
  have hpb_nd : pb.Nodup := (hpb.nodup_iff).mpr hS
  have hsub_len : sub.length = k := by
    rw [hsubdef, List.length_take, List.length_drop]
    omega
  have hsub_sl : sub.Sublist pa := ((pa.drop s).take_sublist k).trans (pa.drop_sublist s)
  have hsub_nd : sub.Nodup := hpa_nd.sublist hsub_sl
  have hsub_pb : ∀ x ∈ sub, x ∈ pb := fun x hx =>
    hpb.mem_iff.mpr (hpa.mem_iff.mp (hsub_sl.subset hx))
  have hfin : (pb.filter (fun x => decide (x ∈ sub))).Perm sub := by
    apply (List.perm_ext_iff_of_nodup (hpb_nd.filter _) hsub_nd).mpr
    intro a
    simp only [List.mem_filter, decide_eq_true_eq]
    exact ⟨fun h => h.2, fun h => ⟨hsub_pb a h, h⟩⟩
  have hpart : (pb.filter (fun x => decide (x ∉ sub)) ++
      pb.filter (fun x => decide (x ∈ sub))).Perm pb := by
    have h0 := List.filter_append_perm (fun x => decide (x ∉ sub)) pb
    have hco : pb.filter (fun x => !decide (x ∉ sub)) =
        pb.filter (fun x => decide (x ∈ sub)) := by
      apply List.filter_congr
      intro x _
      simp
    rw [hco] at h0
    exact h0
  set off := pb.filter (fun x => decide (x ∉ sub)) with hoffdef
  have hk2 : (pb.filter (fun x => decide (x ∈ sub))).length = k := by
    rw [hfin.length_eq, hsub_len]
  have hoff_len : off.length + k = pb.length := by
    have hp := hpart.length_eq
    rw [List.length_append, hk2] at hp
    exact hp
  have hs_off : s ≤ off.length := by
    have hl1 : pa.length = S.length := hpa.length_eq
    have hl2 : pb.length = S.length := hpb.length_eq
    omega
  rw [insert_fold_splice sub k (le_of_eq hsub_len.symm) off s hs_off]
  have hsubtk : sub.take k = sub := by
    rw [← hsub_len, List.take_length]
  rw [hsubtk, List.append_assoc]
  have h3 : (off.take s ++ (sub ++ off.drop s)).Perm (off.take s ++ (off.drop s ++ sub)) :=
    (List.perm_append_comm).append_left (off.take s)
  have h4 : off.take s ++ (off.drop s ++ sub) = off ++ sub := by
    rw [← List.append_assoc, List.take_append_drop]
  have h5 : (off ++ sub).Perm pb := by
    have := (hfin.symm.append_left off).trans hpart
    exact this
  exact ((h3.trans (h4 ▸ List.Perm.refl _)).trans h5).trans hpb

/-- Both offspring of `subset_cross` are permutations of the full city list,
for parents that are permutations of it and segment draws within the ranges
that `randrange` guarantees. -/
theorem subset_cross_perm (S p1 p2 : List City) (k s : ℕ) (hS : S.Nodup)
    (h1 : p1.Perm S) (h2 : p2.Perm S) (hks : s + k ≤ S.length) :
    ∀ o ∈ subset_cross p1 p2 k s, o.Perm S := by
  intro o ho
  simp only [subset_cross, List.mem_cons, List.not_mem_nil, or_false] at ho
  rcases ho with h | h
  · subst h
    exact subset_side_perm S p1 p2 k s hS h1 h2 (by rw [h1.length_eq]; exact hks)
  · subst h
    exact subset_side_perm S p2 p1 k s hS h2 h1 (by rw [h2.length_eq]; exact hks)

/-- On a duplicate-free parent, filtering out the copied segment keeps exactly
the prefix before it and the suffix after it. -/
theorem filter_not_segment (P : List City) (hnd : P.Nodup) (k s : ℕ)
    (hks : s + k ≤ P.length) :
    P.filter (fun x => decide (x ∉ (P.drop s).take k)) = P.take s ++ P.drop (s + k) := by
  set sub := (P.drop s).take k with hsubdef
  have hdec : P = P.take s ++ (sub ++ P.drop (s + k)) := by
    conv_lhs => rw [← List.take_append_drop s P]
    congr 1
    conv_lhs => rw [← List.take_append_drop k (P.drop s)]
    rw [List.drop_drop]
  have hnd2 : (P.take s ++ (sub ++ P.drop (s + k))).Nodup := hdec ▸ hnd
  rw [List.nodup_append] at hnd2
  obtain ⟨hndA, hndSB, hdisA⟩ := hnd2
  rw [List.nodup_append] at hndSB
  obtain ⟨hndS, hndB, hdisSB⟩ := hndSB
  conv_lhs => rw [hdec]
  rw [List.filter_append, List.filter_append]
  have hfA : (P.take s).filter (fun x => decide (x ∉ sub)) = P.take s := by
    rw [List.filter_eq_self]
    intro a ha
    simp only [decide_eq_true_eq]
    intro hasub
    exact hdisA ha (List.mem_append_left _ hasub)
  have hfS : sub.filter (fun x => decide (x ∉ sub)) = [] := by
    rw [List.filter_eq_nil_iff]
    intro a ha
    simp only [decide_eq_true_eq, not_not]
    exact ha
  have hfB : (P.drop (s + k)).filter (fun x => decide (x ∉ sub)) = P.drop (s + k) := by
    rw [List.filter_eq_self]
    intro a ha
    simp only [decide_eq_true_eq]
    intro hasub
    exact hdisSB hasub ha
  rw [hfA, hfS, hfB, List.nil_append]

/-- With two identical duplicate-free parents, one offspring side of
`subset_cross` reconstructs the parent exactly: the segment is re-inserted at
the position it was removed from. -/
theorem subset_side_self (P : List City) (hnd : P.Nodup) (k s : ℕ)
    (hks : s + k ≤ P.length) :
    ((List.range k).reverse).foldl
        (fun acc x => acc.insertIdx s (((P.drop s).take k).getD x dummyCity))
        (P.filter (fun x => decide (x ∉ (P.drop s).take k))) = P := by
  rw [filter_not_segment P hnd k s hks]
  have hsub_len : ((P.drop s).take k).length = k := by
    rw [List.length_take, List.length_drop]
    omega
  have hs_off : s ≤ (P.take s ++ P.drop (s + k)).length := by
    rw [List.length_append, List.length_take, List.length_drop]
    omega
  rw [insert_fold_splice ((P.drop s).take k) k (le_of_eq hsub_len.symm) _ s hs_off]
  have hA : (P.take s).length = s := by
    rw [List.length_take]
    omega
  rw [List.take_left' hA, List.drop_left' hA]
  have hsubtk : ((P.drop s).take k).take k = (P.drop s).take k := by
    rw [List.take_take, min_self]
  rw [hsubtk, List.append_assoc]
  conv_rhs => rw [← List.take_append_drop s P]
  congr 1
  conv_rhs => rw [← List.take_append_drop k (P.drop s)]
  rw [List.drop_drop]

/-- `subset_cross` applied to two identical duplicate-free parents returns the
parent twice, unchanged. -/
theorem subset_cross_self (P : List City) (hnd : P.Nodup) (k s : ℕ)
    (hks : s + k ≤ P.length) :
    subset_cross P P k s = [P, P] := by
  simp only [subset_cross]
  rw [subset_side_self P hnd k s hks]

/-- First-match scan, modelling the `for a, city_a in enumerate(parent1):
if city_a == v: ...; break` loops of `cycle_cross`: the index of the first
element equal to `v`, if any. -/
def scan_first (v : City) : List City → Option ℕ
  | [] => none
  | c :: rest => if c = v then some 0 else (scan_first v rest).map (· + 1)

/-- Last-match scan, modelling the c-loop of `cycle_cross` for matches at
index ≥ 1: the loop body has no `break` in its `else` arm, so each later
match overwrites the pending assignment and the last match wins.  Comparing
a city with Python `None` is `False`, so a `none` target never matches. -/
def scan_last (v : Option City) : List City → Option ℕ
  | [] => none
  | c :: rest =>
    match scan_last v rest with
    | some i => some (i + 1)
    | none => if some c = v then some 0 else none

/-- The fill loop of `cycle_cross`'s else-branch
(`for d, city_d in enumerate(parent2): if not city_d in off1: off1[x] = city_d`):
each candidate not contained in the array (as already updated by this very
loop) overwrites position `x`. -/
def fill_scan (x : ℕ) : List (Option City) → List City → List (Option City)
  | off, [] => off
  | off, c :: rest =>
    if some c ∈ off then fill_scan x off rest
    else fill_scan x (off.set x (some c)) rest

/-- The entry of an optional-city array at `j` (Python `off[j]`). -/
def optAt (o : List (Option City)) (j : ℕ) : Option City := o.getD j none

/-- One iteration of the main loop of `cycle_cross` (tsp.py lines 163-189) on
the state `(off1, off2, flag)`.  In the `flag == 0` branch the a- and b-loops
are first-match scans of `parent1` (`off1[x]` being `None` matches nothing);
then the c-loop either closes the cycle (match at index 0: set the flag) or
stores `parent2[c]` at position `x+1` for the last matching index `c`. -/
def cc_step (p1 p2 : List City) (st : List (Option City) × List (Option City) × Bool)
    (x : ℕ) : List (Option City) × List (Option City) × Bool :=
  if st.2.2 then
    (fill_scan x st.1 p2, fill_scan x st.2.1 p1, true)
  else
    let off2' :=
      match optAt st.1 x with
      | none => st.2.1
      | some v =>
        match scan_first v p1 with
        | none => st.2.1
        | some a =>
          match scan_first (cityAt p2 a) p1 with
          | none => st.2.1
          | some b => st.2.1.set x (some (cityAt p2 b))
    if p1 ≠ [] ∧ p1.head? = optAt off2' x then
      (st.1, off2', true)
    else
      match scan_last (optAt off2' x) p1 with
      | none => (st.1, off2', false)
      | some c => (st.1.set (x + 1) (some (cityAt p2 c)), off2', false)

/-- The initial state of `cycle_cross`: `off1 = [None]*n` with
`off1[0] = parent2[0]`, `off2 = [None]*n`, `flag = 0`. -/
def cc_init (p1 p2 : List City) :
    List (Option City) × List (Option City) × Bool :=
  ((List.replicate p1.length (none : Option City)).set 0 p2.head?,
    List.replicate p2.length (none : Option City), false)

/-- `cycle_cross` (tsp.py lines 155-193): runs the main loop for
`x in range(len(parent1))` and returns `[off1, off2]`, arrays of optional
cities (`none` models the Python `None` placeholder). -/
def cycle_cross (p1 p2 : List City) : List (List (Option City)) :=
  let fin := (List.range p1.length).foldl (cc_step p1 p2) (cc_init p1 p2)
  [fin.1, fin.2.1]

theorem cityAt_eq_getElem (l : List City) (i : ℕ) (h : i < l.length) :
    cityAt l i = l[i] := by
  rw [cityAt, List.getD_eq_getElem?_getD, List.getElem?_eq_getElem h]
  rfl

theorem cityAt_mem (l : List City) (i : ℕ) (h : i < l.length) : cityAt l i ∈ l := by
  rw [cityAt_eq_getElem l i h]
  exact List.getElem_mem h

theorem scan_first_eq (v : City) :
    ∀ l : List City, v ∈ l → scan_first v l = some (l.indexOf v) := by
  intro l
  induction l with
  | nil => intro h; simp at h
  | cons c rest ih =>
    intro hv
    rw [scan_first]
    by_cases hc : c = v
    · rw [if_pos hc, List.indexOf_cons]
      have : (c == v) = true := beq_iff_eq.mpr hc
      rw [this]
      rfl
    · rw [if_neg hc]
      have hvr : v ∈ rest := by
        rcases List.mem_cons.mp hv with h | h
        · exact absurd h.symm hc
        · exact h
      rw [ih hvr, List.indexOf_cons]
      have : (c == v) = false := beq_eq_false_iff_ne.mpr hc
      rw [this]
      rfl

theorem scan_last_none_target (l : List City) : scan_last none l = none := by
  induction l with
  | nil => rfl
  | cons c rest ih =>
    rw [scan_last, ih]
    simp

theorem scan_last_none_of_not_mem (v : City) :
    ∀ l : List City, v ∉ l → scan_last (some v) l = none := by
  intro l
  induction l with
  | nil => intro _; rfl
  | cons c rest ih =>
    intro hv
    rw [scan_last, ih (fun h => hv (List.mem_cons_of_mem c h))]
    have hc : c ≠ v := fun h => hv (h ▸ List.mem_cons_self c rest)
    simp [hc]

theorem scan_last_eq (v : City) :
    ∀ l : List City, l.Nodup → v ∈ l → scan_last (some v) l = some (l.indexOf v) := by
  intro l
  induction l with
  | nil => intro _ h; simp at h
  | cons c rest ih =>
    intro hnd hv
    rw [scan_last]
    rcases List.mem_cons.mp hv with h | h
    · subst h
      have hnm : v ∉ rest := (List.nodup_cons.mp hnd).1
      rw [scan_last_none_of_not_mem v rest hnm]
      simp [List.indexOf_cons]
    · have hc : c ≠ v := by
        intro hcv
        subst hcv
        exact (List.nodup_cons.mp hnd).1 h
      rw [ih (List.nodup_cons.mp hnd).2 h]
      rw [List.indexOf_cons]
      have : (c == v) = false := beq_eq_false_iff_ne.mpr hc
      rw [this]
      rfl

theorem optAt_eq_getElem (o : List (Option City)) (j : ℕ) (h : j < o.length) :
    optAt o j = o[j] := by
  rw [optAt, List.getD_eq_getElem?_getD, List.getElem?_eq_getElem h]
  rfl

theorem optAt_set_self (o : List (Option City)) (x : ℕ) (v : Option City)
    (h : x < o.length) : optAt (o.set x v) x = v := by
  rw [optAt_eq_getElem _ x (by simpa using h), List.getElem_set_self]

theorem optAt_set_ne (o : List (Option City)) (x j : ℕ) (v : Option City)
    (h : x ≠ j) : optAt (o.set x v) j = optAt o j := by
  by_cases hj : j < o.length
  · rw [optAt_eq_getElem _ j (by simpa using hj), optAt_eq_getElem o j hj]
    exact List.getElem_set_ne h _
  · rw [optAt, optAt, List.getD_eq_getElem?_getD, List.getD_eq_getElem?_getD]
    rw [List.getElem?_eq_none (by simpa using not_lt.mp hj),
      List.getElem?_eq_none (by simpa using not_lt.mp hj)]

theorem mem_opt_iff (o : List (Option City)) (v : Option City) :
    v ∈ o ↔ ∃ j, ∃ h : j < o.length, optAt o j = v := by
  rw [List.mem_iff_getElem]
  constructor
  · rintro ⟨j, h, e⟩
    exact ⟨j, h, by rw [optAt_eq_getElem o j h]; exact e⟩
  · rintro ⟨j, h, e⟩
    exact ⟨j, h, by rw [← optAt_eq_getElem o j h]; exact e⟩

/-- With a non-empty list the default of `getLastD` is irrelevant. -/
theorem getLastD_default_irrel (l : List City) (h : l ≠ []) (a b : City) :
    l.getLastD a = l.getLastD b := by
  rw [List.getLastD_eq_getLast?, List.getLastD_eq_getLast?]
  rcases List.getLast?_isSome.mpr h |> Option.isSome_iff_exists.mp with ⟨y, hy⟩
  rw [hy]
  rfl

/-- Exact description of the fill loop: with a duplicate-free candidate list,
the slot `x` (empty, or holding a value outside the candidates) receives the
last candidate not contained in the array, and nothing else changes; with no
such candidate the array is unchanged. -/
theorem fill_scan_eq (src : List City) :
    ∀ (off : List (Option City)) (x : ℕ), src.Nodup → x < off.length →
      (optAt off x = none ∨ ∃ w, optAt off x = some w ∧ w ∉ src) →
      fill_scan x off src =
        if (src.filter (fun c => decide (some c ∉ off))) = [] then off
        else off.set x
          (some ((src.filter (fun c => decide (some c ∉ off))).getLastD dummyCity)) := by
  induction src with
  | nil =>
    intro off x _ _ _
    simp [fill_scan]
  | cons c rest ih =>
    intro off x hnd hx hslot
    have hndr : rest.Nodup := (List.nodup_cons.mp hnd).2
    have hcr : c ∉ rest := (List.nodup_cons.mp hnd).1
    by_cases hmem : some c ∈ off
    · rw [fill_scan, if_pos hmem]
      have hfil : (c :: rest).filter (fun a => decide (some a ∉ off)) =
          rest.filter (fun a => decide (some a ∉ off)) := by
        rw [List.filter_cons]
        simp [hmem]
      have hslot2 : optAt off x = none ∨ ∃ w, optAt off x = some w ∧ w ∉ rest := by
        rcases hslot with h | ⟨w, hw, hwn⟩
        · exact Or.inl h
        · exact Or.inr ⟨w, hw, fun hc => hwn (List.mem_cons_of_mem c hc)⟩
      rw [ih off x hndr hx hslot2, hfil]
    · rw [fill_scan, if_neg hmem]
      set off' := off.set x (some c) with hoffdef
      have hx' : x < off'.length := by
        rw [hoffdef, List.length_set]
        exact hx
      have hslot' : optAt off' x = none ∨ ∃ w, optAt off' x = some w ∧ w ∉ rest := by
        right
        exact ⟨c, optAt_set_self off x (some c) hx, hcr⟩
      have hmemiff : ∀ a ∈ rest, (some a ∈ off') ↔ (some a ∈ off) := by
        intro a har
        have hac : a ≠ c := fun h => hcr (h ▸ har)
        constructor
        · intro hin
          rcases (mem_opt_iff off' (some a)).mp hin with ⟨j, hj, he⟩
          have hj' : j < off.length := by
            rw [hoffdef, List.length_set] at hj
            exact hj
          by_cases hxj : x = j
          · subst hxj
            rw [optAt_set_self off x (some c) hx] at he
            exact absurd (Option.some_inj.mp he).symm hac
          · rw [optAt_set_ne off x j (some c) hxj] at he
            exact (mem_opt_iff off (some a)).mpr ⟨j, hj', he⟩
        · intro hin
          rcases (mem_opt_iff off (some a)).mp hin with ⟨j, hj, he⟩
          have hxj : x ≠ j := by
            intro hx_eq
            subst hx_eq
            rcases hslot with h0 | ⟨w, hw, hwns⟩
            · rw [h0] at he
              exact Option.noConfusion he
            · rw [hw] at he
              have : w = a := Option.some_inj.mp he
              subst this
              exact hwns (List.mem_cons_of_mem c har)
          refine (mem_opt_iff off' (some a)).mpr ⟨j, ?_, ?_⟩
          · rw [hoffdef, List.length_set]
            exact hj
          · rw [optAt_set_ne off x j (some c) hxj]
            exact he
      have hfilcong : rest.filter (fun a => decide (some a ∉ off')) =
          rest.filter (fun a => decide (some a ∉ off)) := by
        apply List.filter_congr
        intro a ha
        simp only [decide_eq_decide]
        rw [hmemiff a ha]
      have hfil : (c :: rest).filter (fun a => decide (some a ∉ off)) =
          c :: rest.filter (fun a => decide (some a ∉ off)) := by
        rw [List.filter_cons]
        simp [hmem]
      rw [ih off' x hndr hx' hslot', hfilcong, hfil]
      by_cases hfe : rest.filter (fun a => decide (some a ∉ off)) = []
      · rw [if_pos hfe]
        have hne : (c :: rest.filter (fun a => decide (some a ∉ off))) ≠ [] := by simp
        rw [if_neg hne, List.getLastD_cons, hfe, List.getLastD_nil]
      · rw [if_neg hfe]
        have hne : (c :: rest.filter (fun a => decide (some a ∉ off))) ≠ [] := by simp
        rw [if_neg hne, hoffdef, List.set_set, List.getLastD_cons,
          getLastD_default_irrel _ hfe dummyCity c]

/-- The index in `parent1` of the city at position `i` of `parent2`: the
composite of the three inner searches of `cycle_cross` is iteration of this
map. -/
def pidx (p1 p2 : List City) (i : ℕ) : ℕ := p1.indexOf (cityAt p2 i)

/-- The position sequence of the cycle phase of `cycle_cross`:
`off1[x] = parent2[orbI x]`, starting at position 0 and advancing by three
applications of `pidx` per iteration. -/
def orbI (p1 p2 : List City) (j : ℕ) : ℕ := (pidx p1 p2)^[3 * j] 0

theorem pidx_lt (p1 p2 : List City) (hp : p2.Perm p1) (i : ℕ) (hi : i < p1.length) :
    pidx p1 p2 i < p1.length := by
  rw [pidx, List.indexOf_lt_length]
  exact hp.subset (cityAt_mem p2 i (by rw [hp.length_eq]; exact hi))

theorem cityAt_p1_pidx (p1 p2 : List City) (hp : p2.Perm p1) (i : ℕ)
    (hi : i < p1.length) : cityAt p1 (pidx p1 p2 i) = cityAt p2 i := by
  have hmem : cityAt p2 i ∈ p1 :=
    hp.subset (cityAt_mem p2 i (by rw [hp.length_eq]; exact hi))
  have hlt : p1.indexOf (cityAt p2 i) < p1.length := List.indexOf_lt_length.mpr hmem
  rw [pidx, cityAt_eq_getElem p1 _ hlt]
  have h := List.indexOf_get hlt
  rw [List.get_eq_getElem] at h
  exact h

theorem cityAt_p2_inj (p1 p2 : List City) (hnd1 : p1.Nodup) (hp : p2.Perm p1)
    (i j : ℕ) (hi : i < p1.length) (hj : j < p1.length)
    (he : cityAt p2 i = cityAt p2 j) : i = j := by
  have hnd2 : p2.Nodup := hp.nodup_iff.mpr hnd1
  have hi2 : i < p2.length := by rw [hp.length_eq]; exact hi
  have hj2 : j < p2.length := by rw [hp.length_eq]; exact hj
  rw [cityAt_eq_getElem p2 i hi2, cityAt_eq_getElem p2 j hj2] at he
  exact (List.Nodup.getElem_inj_iff hnd2).mp he

theorem pidx_inj (p1 p2 : List City) (hnd1 : p1.Nodup) (hp : p2.Perm p1)
    (i j : ℕ) (hi : i < p1.length) (hj : j < p1.length)
    (he : pidx p1 p2 i = pidx p1 p2 j) : i = j := by
  apply cityAt_p2_inj p1 p2 hnd1 hp i j hi hj
  rw [← cityAt_p1_pidx p1 p2 hp i hi, ← cityAt_p1_pidx p1 p2 hp j hj, he]

theorem pidx_iterate_lt (p1 p2 : List City) (hp : p2.Perm p1) (hne : p1 ≠ []) :
    ∀ (m x : ℕ), x < p1.length → (pidx p1 p2)^[m] x < p1.length := by
  intro m
  induction m with
  | zero => intro x hx; simpa using hx
  | succ k ih =>
    intro x hx
    rw [Function.iterate_succ_apply]
    exact ih (pidx p1 p2 x) (pidx_lt p1 p2 hp x hx)

theorem pidx_iterate_cancel (p1 p2 : List City) (hnd1 : p1.Nodup) (hp : p2.Perm p1)
    (hne : p1 ≠ []) :
    ∀ (m x y : ℕ), x < p1.length → y < p1.length →
      (pidx p1 p2)^[m] x = (pidx p1 p2)^[m] y → x = y := by
  intro m
  induction m with
  | zero => intro x y _ _ h; simpa using h
  | succ k ih =>
    intro x y hx hy h
    rw [Function.iterate_succ_apply', Function.iterate_succ_apply'] at h
    have := pidx_inj p1 p2 hnd1 hp _ _
      (pidx_iterate_lt p1 p2 hp hne k x hx) (pidx_iterate_lt p1 p2 hp hne k y hy) h
    exact ih x y hx hy this

theorem orbI_lt (p1 p2 : List City) (hp : p2.Perm p1) (hne : p1 ≠ []) (j : ℕ) :
    orbI p1 p2 j < p1.length :=
  pidx_iterate_lt p1 p2 hp hne (3 * j) 0 (List.length_pos.mpr hne)

theorem orbI_succ (p1 p2 : List City) (j : ℕ) :
    orbI p1 p2 (j + 1) =
      pidx p1 p2 (pidx p1 p2 (pidx p1 p2 (orbI p1 p2 j))) := by
  rw [orbI, orbI]
  have h3 : 3 * (j + 1) = 3 + 3 * j := by ring
  rw [h3, Function.iterate_add_apply]
  rfl

theorem orbI_add (p1 p2 : List City) (a b : ℕ) :
    orbI p1 p2 (a + b) = (pidx p1 p2)^[3 * a] (orbI p1 p2 b) := by
  rw [orbI, orbI]
  have : 3 * (a + b) = 3 * a + 3 * b := by ring
  rw [this, Function.iterate_add_apply]

/-- The position sequence returns to 0 within `n` steps: pigeonhole over the
first `n+1` orbit values. -/
theorem orbI_exists_return (p1 p2 : List City) (hnd1 : p1.Nodup) (hp : p2.Perm p1)
    (hne : p1 ≠ []) :
    ∃ j, (0 < j ∧ orbI p1 p2 j = 0) ∧ j ≤ p1.length := by
  set n := p1.length with hn
  have hmap : ∀ j ∈ Finset.range (n + 1), orbI p1 p2 j ∈ Finset.range n := by
    intro j _
    exact Finset.mem_range.mpr (orbI_lt p1 p2 hp hne j)
  have hcard : (Finset.range n).card < (Finset.range (n + 1)).card := by
    simp
  obtain ⟨j1, hj1, j2, hj2, hne12, heq⟩ :=
    Finset.exists_ne_map_eq_of_card_lt_of_maps_to hcard hmap
  rw [Finset.mem_range] at hj1 hj2
  rcases lt_or_gt_of_ne hne12 with hlt | hlt
  · refine ⟨j2 - j1, ⟨by omega, ?_⟩, by omega⟩
    have hdec : j2 = j1 + (j2 - j1) := by omega
    rw [hdec, orbI_add] at heq
    have h0 : orbI p1 p2 j1 = (pidx p1 p2)^[3 * j1] 0 := rfl
    rw [h0] at heq
    exact (pidx_iterate_cancel p1 p2 hnd1 hp hne (3 * j1) 0 _
      (List.length_pos.mpr hne) (orbI_lt p1 p2 hp hne (j2 - j1)) heq).symm
  · refine ⟨j1 - j2, ⟨by omega, ?_⟩, by omega⟩
    have hdec : j1 = j2 + (j1 - j2) := by omega
    rw [hdec, orbI_add] at heq
    have h0 : orbI p1 p2 j2 = (pidx p1 p2)^[3 * j2] 0 := rfl
    rw [h0] at heq
    exact (pidx_iterate_cancel p1 p2 hnd1 hp hne (3 * j2) 0 _
      (List.length_pos.mpr hne) (orbI_lt p1 p2 hp hne (j1 - j2)) heq.symm).symm

theorem indexOf_zero_iff_head (p1 : List City) (hne : p1 ≠ []) (w : City) :
    p1.indexOf w = 0 ↔ p1.head? = some w := by
  cases p1 with
  | nil => exact absurd rfl hne
  | cons h1 t1 =>
    rw [List.indexOf_cons, List.head?_cons]
    by_cases hh : h1 = w
    · subst hh
      simp
    · have hb : (h1 == w) = false := beq_eq_false_iff_ne.mpr hh
      rw [hb]
      simp [hh]

/-- Evaluation of one `flag == 0` iteration of `cycle_cross`: with
`off1[x] = parent2[i]`, the iteration writes `parent2[pidx (pidx i)]` to
`off2[x]`, and either sets the flag (when the cycle closes, i.e.
`pidx (pidx (pidx i)) = 0`) or writes `parent2[pidx (pidx (pidx i))]` to
`off1[x+1]`. -/
theorem cc_step_eval (p1 p2 : List City) (o1 o2 : List (Option City)) (x i : ℕ)
    (hnd1 : p1.Nodup) (hp : p2.Perm p1) (hi : i < p1.length)
    (ho1x : optAt o1 x = some (cityAt p2 i)) (hx2 : x < o2.length) :
    cc_step p1 p2 (o1, o2, false) x =
      if pidx p1 p2 (pidx p1 p2 (pidx p1 p2 i)) = 0 then
        (o1, o2.set x (some (cityAt p2 (pidx p1 p2 (pidx p1 p2 i)))), true)
      else
        (o1.set (x + 1) (some (cityAt p2 (pidx p1 p2 (pidx p1 p2 (pidx p1 p2 i))))),
          o2.set x (some (cityAt p2 (pidx p1 p2 (pidx p1 p2 i)))), false) := by
  have hne : p1 ≠ [] := by
    intro h
    rw [h] at hi
    simp at hi
  have hlen2 : p2.length = p1.length := hp.length_eq
  have hv1 : cityAt p2 i ∈ p1 := hp.subset (cityAt_mem p2 i (by omega))
  have hfi : pidx p1 p2 i < p1.length := pidx_lt p1 p2 hp i hi
  have hv2 : cityAt p2 (pidx p1 p2 i) ∈ p1 :=
    hp.subset (cityAt_mem p2 _ (by omega))
  have hffi : pidx p1 p2 (pidx p1 p2 i) < p1.length := pidx_lt p1 p2 hp _ hfi
  have hv3 : cityAt p2 (pidx p1 p2 (pidx p1 p2 i)) ∈ p1 :=
    hp.subset (cityAt_mem p2 _ (by omega))
  have ha := scan_first_eq (cityAt p2 i) p1 hv1
  have hb := scan_first_eq (cityAt p2 (pidx p1 p2 i)) p1 hv2
  set w := cityAt p2 (pidx p1 p2 (pidx p1 p2 i)) with hwdef
  have hsetx : optAt (o2.set x (some w)) x = some w := optAt_set_self o2 x (some w) hx2
  have hcond : (p1 ≠ [] ∧ p1.head? = optAt (o2.set x (some w)) x) ↔
      pidx p1 p2 (pidx p1 p2 (pidx p1 p2 i)) = 0 := by
    rw [hsetx]
    have : pidx p1 p2 (pidx p1 p2 (pidx p1 p2 i)) = p1.indexOf w := by rw [pidx]
    rw [this, indexOf_zero_iff_head p1 hne w]
    simp [hne]
  have hlast : scan_last (optAt (o2.set x (some w)) x) p1 =
      some (pidx p1 p2 (pidx p1 p2 (pidx p1 p2 i))) := by
    rw [hsetx, scan_last_eq w p1 hnd1 hv3]
    rfl
  rw [cc_step]
  simp only [ho1x, ha]
  simp only [Bool.false_eq_true, if_false]
  have hbeq : pidx p1 p2 i = p1.indexOf (cityAt p2 i) := rfl
  rw [← hbeq, hb]
  dsimp only
  have hbeq2 : pidx p1 p2 (pidx p1 p2 i) = p1.indexOf (cityAt p2 (pidx p1 p2 i)) := rfl
  rw [← hbeq2, ← hwdef]
  by_cases hz : pidx p1 p2 (pidx p1 p2 (pidx p1 p2 i)) = 0
  · rw [if_pos (hcond.mpr hz), if_pos hz]
  · rw [if_neg (fun hc => hz (hcond.mp hc)), hlast, if_neg hz]

/-- The state of `cycle_cross`'s main loop after `t` iterations. -/
def cc_run (p1 p2 : List City) (t : ℕ) :
    List (Option City) × List (Option City) × Bool :=
  (List.range t).foldl (cc_step p1 p2) (cc_init p1 p2)

theorem cc_run_succ (p1 p2 : List City) (t : ℕ) :
    cc_run p1 p2 (t + 1) = cc_step p1 p2 (cc_run p1 p2 t) t := by
  rw [cc_run, cc_run, List.range_succ, List.foldl_append]
  rfl

theorem cycle_cross_eq_run (p1 p2 : List City) :
    cycle_cross p1 p2 =
      [(cc_run p1 p2 p1.length).1, (cc_run p1 p2 p1.length).2.1] := rfl

theorem optAt_replicate (n j : ℕ) :
    optAt (List.replicate n (none : Option City)) j = none := by
  rw [optAt, List.getD_eq_getElem?_getD]
  by_cases hj : j < n
  · rw [List.getElem?_eq_getElem (by simpa using hj)]
    simp
  · rw [List.getElem?_eq_none (by simpa using not_lt.mp hj)]
    rfl

theorem head?_eq_cityAt (p : List City) (h : p ≠ []) : p.head? = some (cityAt p 0) := by
  cases p with
  | nil => exact absurd rfl h
  | cons a t => rfl

/-- Phase-1 invariant of `cycle_cross`: while the cycle has not closed, after
`t` iterations `off1` holds `parent2[orbI j]` at positions `j ≤ t`, `off2`
holds `parent2[pidx (pidx (orbI j))]` at positions `j < t`, and the flag is
still unset. -/
theorem cc_phase1 (p1 p2 : List City) (hnd1 : p1.Nodup) (hp : p2.Perm p1)
    (hne : p1 ≠ []) :
    ∀ t, t < p1.length → (∀ m, 0 < m → m ≤ t → orbI p1 p2 m ≠ 0) →
      ∃ o1 o2, cc_run p1 p2 t = (o1, o2, false) ∧
        o1.length = p1.length ∧ o2.length = p1.length ∧
        (∀ j, j < p1.length →
          optAt o1 j = if j ≤ t then some (cityAt p2 (orbI p1 p2 j)) else none) ∧
        (∀ j, j < p1.length →
          optAt o2 j = if j < t then
            some (cityAt p2 (pidx p1 p2 (pidx p1 p2 (orbI p1 p2 j)))) else none) := by
  have hlen2 : p2.length = p1.length := hp.length_eq
  have hn0 : 0 < p1.length := List.length_pos.mpr hne
  have hne2 : p2 ≠ [] := by
    intro h
    rw [h] at hlen2
    simp at hlen2
    omega
  intro t
  induction t with
  | zero =>
    intro _ _
    refine ⟨(List.replicate p1.length (none : Option City)).set 0 p2.head?,
      List.replicate p2.length (none : Option City), rfl, by simp, by simp [hlen2], ?_, ?_⟩
    · intro j hj
      by_cases hj0 : j = 0
      · subst hj0
        rw [optAt_set_self _ 0 _ (by simpa using hn0), head?_eq_cityAt p2 hne2]
        simp [orbI]
      · rw [optAt_set_ne _ 0 j _ (fun h => hj0 h.symm), optAt_replicate]
        simp [hj0]
    · intro j hj
      rw [optAt_replicate]
      simp
  | succ t ih =>
    intro ht hmin
    obtain ⟨o1, o2, hrun, hl1, hl2, ho1, ho2⟩ :=
      ih (by omega) (fun m hm hmt => hmin m hm (by omega))
    have ho1t : optAt o1 t = some (cityAt p2 (orbI p1 p2 t)) := by
      rw [ho1 t (by omega)]
      simp
    have heval := cc_step_eval p1 p2 o1 o2 t (orbI p1 p2 t) hnd1 hp
      (orbI_lt p1 p2 hp hne t) ho1t (by omega)
    have hnz : ¬ pidx p1 p2 (pidx p1 p2 (pidx p1 p2 (orbI p1 p2 t))) = 0 := by
      rw [← orbI_succ]
      exact hmin (t + 1) (by omega) (le_refl _)
    rw [cc_run_succ, hrun, heval, if_neg hnz]
    refine ⟨o1.set (t + 1) (some (cityAt p2 (pidx p1 p2 (pidx p1 p2 (pidx p1 p2 (orbI p1 p2 t)))))),
      o2.set t (some (cityAt p2 (pidx p1 p2 (pidx p1 p2 (orbI p1 p2 t))))),
      rfl, by simpa using hl1, by simpa using hl2, ?_, ?_⟩
    · intro j hj
      by_cases hjt : j = t + 1
      · subst hjt
        rw [optAt_set_self o1 _ _ (by omega), ← orbI_succ]
        simp
      · rw [optAt_set_ne o1 _ j _ (fun h => hjt h.symm), ho1 j hj]
        by_cases hle : j ≤ t
        · rw [if_pos hle, if_pos (by omega)]
        · rw [if_neg hle, if_neg (by omega)]
    · intro j hj
      by_cases hjt : j = t
      · subst hjt
        rw [optAt_set_self o2 _ _ (by omega)]
        simp
      · rw [optAt_set_ne o2 _ j _ (fun h => hjt h.symm), ho2 j hj]
        by_cases hlt : j < t
        · rw [if_pos hlt, if_pos (by omega)]
        · rw [if_neg hlt, if_neg (by omega)]

/-- Distinctness of the cycle positions before the first return to 0. -/
theorem orbI_inj_below (p1 p2 : List City) (hnd1 : p1.Nodup) (hp : p2.Perm p1)
    (hne : p1 ≠ []) (K : ℕ) (hKmin : ∀ m, 0 < m → m < K → orbI p1 p2 m ≠ 0) :
    ∀ j1 j2, j1 < K → j2 < K → orbI p1 p2 j1 = orbI p1 p2 j2 → j1 = j2 := by
  have haux : ∀ j1 j2, j1 < j2 → j2 < K → orbI p1 p2 j1 = orbI p1 p2 j2 → False := by
    intro j1 j2 hlt hK he
    have hdec : j2 = j1 + (j2 - j1) := by omega
    rw [hdec, orbI_add] at he
    have h0 : orbI p1 p2 j1 = (pidx p1 p2)^[3 * j1] 0 := rfl
    rw [h0] at he
    have := (pidx_iterate_cancel p1 p2 hnd1 hp hne (3 * j1) 0 _
      (List.length_pos.mpr hne) (orbI_lt p1 p2 hp hne (j2 - j1)) he).symm
    exact hKmin (j2 - j1) (by omega) (by omega) this
  intro j1 j2 h1 h2 he
  rcases lt_trichotomy j1 j2 with h | h | h
  · exact absurd he (fun hc => haux j1 j2 h h2 hc)
  · exact h
  · exact absurd he.symm (fun hc => haux j2 j1 h h1 hc)

/-- Invariant of the fill phase: positions below `t` are filled with
pairwise-distinct values from `src`, positions from `t` on are still `None`. -/
def GoodArr (src : List City) (o : List (Option City)) (t n : ℕ) : Prop :=
  o.length = n ∧ (∀ j, j < n → (optAt o j ≠ none ↔ j < t)) ∧
    (∀ j1 j2, j1 < n → j2 < n → j1 < t → j2 < t → optAt o j1 = optAt o j2 → j1 = j2) ∧
    (∀ j v, j < n → optAt o j = some v → v ∈ src)

/-- State of `cycle_cross` when the flag has just been set (iteration `K-1`,
where `K` is the first return of the position sequence to 0). -/
theorem cc_at_flag (p1 p2 : List City) (hnd1 : p1.Nodup) (hp : p2.Perm p1)
    (hne : p1 ≠ []) (K : ℕ) (hK0 : 0 < K) (hKz : orbI p1 p2 K = 0)
    (hKmin : ∀ m, 0 < m → m < K → orbI p1 p2 m ≠ 0) (hKn : K ≤ p1.length) :
    ∃ o1 o2, cc_run p1 p2 K = (o1, o2, true) ∧
      o1.length = p1.length ∧ o2.length = p1.length ∧
      (∀ j, j < p1.length →
        optAt o1 j = if j < K then some (cityAt p2 (orbI p1 p2 j)) else none) ∧
      (∀ j, j < p1.length →
        optAt o2 j = if j < K then
          some (cityAt p2 (pidx p1 p2 (pidx p1 p2 (orbI p1 p2 j)))) else none) := by
  obtain ⟨t, ht⟩ : ∃ t, K = t + 1 := ⟨K - 1, by omega⟩
  subst ht
  obtain ⟨o1, o2, hrun, hl1, hl2, ho1, ho2⟩ :=
    cc_phase1 p1 p2 hnd1 hp hne t (by omega)
      (fun m hm hmt => hKmin m hm (by omega))
  have ho1t : optAt o1 t = some (cityAt p2 (orbI p1 p2 t)) := by
    rw [ho1 t (by omega)]
    simp
  have heval := cc_step_eval p1 p2 o1 o2 t (orbI p1 p2 t) hnd1 hp
    (orbI_lt p1 p2 hp hne t) ho1t (by omega)
  have hz : pidx p1 p2 (pidx p1 p2 (pidx p1 p2 (orbI p1 p2 t))) = 0 := by
    rw [← orbI_succ]
    exact hKz
  rw [cc_run_succ, hrun, heval, if_pos hz]
  refine ⟨o1, o2.set t (some (cityAt p2 (pidx p1 p2 (pidx p1 p2 (orbI p1 p2 t))))),
    rfl, hl1, by simpa using hl2, ?_, ?_⟩
  · intro j hj
    rw [ho1 j hj]
    by_cases hle : j ≤ t
    · rw [if_pos hle, if_pos (by omega)]
    · rw [if_neg hle, if_neg (by omega)]
  · intro j hj
    by_cases hjt : j = t
    · subst hjt
      rw [optAt_set_self o2 _ _ (by omega)]
      simp
    · rw [optAt_set_ne o2 _ j _ (fun h => hjt h.symm), ho2 j hj]
      by_cases hlt : j < t
      · rw [if_pos hlt, if_pos (by omega)]
      · rw [if_neg hlt, if_neg (by omega)]

theorem getLastD_mem_of_ne_nil (l : List City) (h : l ≠ []) (d : City) :
    l.getLastD d ∈ l := by
  rw [List.getLastD_eq_getLast?]
  obtain ⟨y, hy⟩ := Option.isSome_iff_exists.mp (List.getLast?_isSome.mpr h)
  rw [hy]
  exact List.mem_of_getLast?_eq_some hy

/-- When every candidate is already contained in the array, the number of
distinct entries would exceed the array length: there is always an unused
candidate while a `None` slot remains. -/
theorem filter_unused_ne_nil (src : List City) (o : List (Option City)) (t : ℕ)
    (hsl : src.length = o.length) (hsnd : src.Nodup) (ht : t < o.length)
    (hslot : optAt o t = none) :
    src.filter (fun c => decide (some c ∉ o)) ≠ [] := by
  intro hfe
  rw [List.filter_eq_nil_iff] at hfe
  have hall : ∀ a ∈ src, some a ∈ o := by
    intro a ha
    have := hfe a ha
    simp only [decide_eq_true_eq, not_not] at this
    exact this
  set L : List (Option City) := (none : Option City) :: src.map some with hLdef
  have hLnd : L.Nodup := by
    rw [hLdef, List.nodup_cons]
    constructor
    · intro hc
      obtain ⟨a, _, ha⟩ := List.mem_map.mp hc
      exact Option.noConfusion ha
    · exact hsnd.map (Option.some_injective City)
  have hLsub : L ⊆ o := by
    intro v hv
    rw [hLdef] at hv
    rcases List.mem_cons.mp hv with h | h
    · subst h
      exact (mem_opt_iff o none).mpr ⟨t, ht, hslot⟩
    · obtain ⟨a, ha, rfl⟩ := List.mem_map.mp h
      exact hall a ha
  have hlen : L.length = src.length + 1 := by
    rw [hLdef]
    simp
  have := (hLnd.subperm hLsub).length_le
  omega

/-- The fill phase advances the invariant by one position: the `None` slot at
`t` receives a fresh value from `src`. -/
theorem goodarr_fill_step (src : List City) (o : List (Option City)) (t n : ℕ)
    (hsnd : src.Nodup) (hslen : src.length = n) (ht : t < n)
    (hG : GoodArr src o t n) : GoodArr src (fill_scan t o src) (t + 1) n := by
  obtain ⟨hlen, hnn, hinj, hmem⟩ := hG
  have hslot : optAt o t = none := by
    by_contra hc
    exact absurd ((hnn t ht).mp hc) (lt_irrefl t)
  have hfe : src.filter (fun c => decide (some c ∉ o)) ≠ [] :=
    filter_unused_ne_nil src o t (by omega) hsnd (by omega) hslot
  have heq := fill_scan_eq src o t hsnd (by omega) (Or.inl hslot)
  rw [if_neg hfe] at heq
  set wlast := (src.filter (fun c => decide (some c ∉ o))).getLastD dummyCity with hwdef
  have hwfil : wlast ∈ src.filter (fun c => decide (some c ∉ o)) :=
    getLastD_mem_of_ne_nil _ hfe dummyCity
  have hwsrc : wlast ∈ src := List.mem_of_mem_filter hwfil
  have hwno : some wlast ∉ o := by
    have := List.of_mem_filter hwfil
    simpa using this
  rw [heq]
  refine ⟨by simpa using hlen, ?_, ?_, ?_⟩
  · intro j hj
    by_cases hjt : j = t
    · subst hjt
      rw [optAt_set_self o _ _ (by omega)]
      simp
    · rw [optAt_set_ne o _ j _ (fun h => hjt h.symm)]
      rw [hnn j hj]
      omega
  · intro j1 j2 hj1 hj2 ht1 ht2 he
    by_cases h1t : j1 = t
    · by_cases h2t : j2 = t
      · rw [h1t, h2t]
      · exfalso
        subst h1t
        rw [optAt_set_self o _ _ (by omega),
          optAt_set_ne o _ j2 _ (fun h => h2t h.symm)] at he
        exact hwno ((mem_opt_iff o (some wlast)).mpr ⟨j2, by omega, he.symm⟩)
    · by_cases h2t : j2 = t
      · exfalso
        subst h2t
        rw [optAt_set_self o _ _ (by omega),
          optAt_set_ne o _ j1 _ (fun h => h1t h.symm)] at he
        exact hwno ((mem_opt_iff o (some wlast)).mpr ⟨j1, by omega, he⟩)
      · rw [optAt_set_ne o _ j1 _ (fun h => h1t h.symm),
          optAt_set_ne o _ j2 _ (fun h => h2t h.symm)] at he
        exact hinj j1 j2 hj1 hj2 (by omega) (by omega) he
  · intro j v hj hv
    by_cases hjt : j = t
    · subst hjt
      rw [optAt_set_self o _ _ (by omega)] at hv
      rw [← Option.some_inj.mp hv]
      exact hwsrc
    · rw [optAt_set_ne o _ j _ (fun h => hjt h.symm)] at hv
      exact hmem j v hj hv

/-- The arrays at the moment the flag is set satisfy the fill-phase
invariant. -/
theorem cc_goodarr_at_flag (p1 p2 : List City) (hnd1 : p1.Nodup) (hp : p2.Perm p1)
    (hne : p1 ≠ []) (K : ℕ) (hK0 : 0 < K) (hKz : orbI p1 p2 K = 0)
    (hKmin : ∀ m, 0 < m → m < K → orbI p1 p2 m ≠ 0) (hKn : K ≤ p1.length) :
    ∃ o1 o2, cc_run p1 p2 K = (o1, o2, true) ∧
      GoodArr p2 o1 K p1.length ∧ GoodArr p1 o2 K p1.length := by
  obtain ⟨o1, o2, hrun, hl1, hl2, ho1, ho2⟩ :=
    cc_at_flag p1 p2 hnd1 hp hne K hK0 hKz hKmin hKn
  have hlen2 : p2.length = p1.length := hp.length_eq
  refine ⟨o1, o2, hrun, ⟨hl1, ?_, ?_, ?_⟩, ⟨hl2, ?_, ?_, ?_⟩⟩
  · intro j hj
    rw [ho1 j hj]
    by_cases hK : j < K
    · simp [hK]
    · simp [hK]
  · intro j1 j2 hj1 hj2 ht1 ht2 he
    rw [ho1 j1 hj1, ho1 j2 hj2, if_pos ht1, if_pos ht2] at he
    have := cityAt_p2_inj p1 p2 hnd1 hp _ _
      (orbI_lt p1 p2 hp hne j1) (orbI_lt p1 p2 hp hne j2) (Option.some_inj.mp he)
    exact orbI_inj_below p1 p2 hnd1 hp hne K hKmin j1 j2 ht1 ht2 this
  · intro j v hj hv
    rw [ho1 j hj] at hv
    by_cases hK : j < K
    · rw [if_pos hK] at hv
      rw [← Option.some_inj.mp hv]
      exact cityAt_mem p2 _ (by rw [hlen2]; exact orbI_lt p1 p2 hp hne j)
    · rw [if_neg hK] at hv
      exact Option.noConfusion hv
  · intro j hj
    rw [ho2 j hj]
    by_cases hK : j < K
    · simp [hK]
    · simp [hK]
  · intro j1 j2 hj1 hj2 ht1 ht2 he
    rw [ho2 j1 hj1, ho2 j2 hj2, if_pos ht1, if_pos ht2] at he
    have h1lt := pidx_lt p1 p2 hp _ (orbI_lt p1 p2 hp hne j1)
    have h2lt := pidx_lt p1 p2 hp _ (orbI_lt p1 p2 hp hne j2)
    have hc := cityAt_p2_inj p1 p2 hnd1 hp _ _
      (pidx_lt p1 p2 hp _ h1lt) (pidx_lt p1 p2 hp _ h2lt) (Option.some_inj.mp he)
    have hc2 := pidx_inj p1 p2 hnd1 hp _ _ h1lt h2lt hc
    have hc3 := pidx_inj p1 p2 hnd1 hp _ _
      (orbI_lt p1 p2 hp hne j1) (orbI_lt p1 p2 hp hne j2) hc2
    exact orbI_inj_below p1 p2 hnd1 hp hne K hKmin j1 j2 ht1 ht2 hc3
  · intro j v hj hv
    rw [ho2 j hj] at hv
    by_cases hK : j < K
    · rw [if_pos hK] at hv
      rw [← Option.some_inj.mp hv]
      exact hp.subset (cityAt_mem p2 _ (by
        rw [hlen2]
        exact pidx_lt p1 p2 hp _ (pidx_lt p1 p2 hp _ (orbI_lt p1 p2 hp hne j))))
    · rw [if_neg hK] at hv
      exact Option.noConfusion hv

/-- Fill-phase invariant of `cycle_cross`, from the flag point to the end of
the loop. -/
theorem cc_phase2 (p1 p2 : List City) (hnd1 : p1.Nodup) (hp : p2.Perm p1)
    (hne : p1 ≠ []) (K : ℕ) (hK0 : 0 < K) (hKz : orbI p1 p2 K = 0)
    (hKmin : ∀ m, 0 < m → m < K → orbI p1 p2 m ≠ 0) (hKn : K ≤ p1.length) :
    ∀ t, K ≤ t → t ≤ p1.length →
      ∃ o1 o2, cc_run p1 p2 t = (o1, o2, true) ∧
        GoodArr p2 o1 t p1.length ∧ GoodArr p1 o2 t p1.length := by
  have hnd2 : p2.Nodup := hp.nodup_iff.mpr hnd1
  have hlen2 : p2.length = p1.length := hp.length_eq
  intro t
  induction t with
  | zero =>
    intro hKt _
    have : K = 0 := by omega
    omega
  | succ t ih =>
    intro hKt ht
    by_cases hKt' : K ≤ t
    · obtain ⟨o1, o2, hrun, hG1, hG2⟩ := ih hKt' (by omega)
      have hstep : cc_run p1 p2 (t + 1) =
          (fill_scan t o1 p2, fill_scan t o2 p1, true) := by
        rw [cc_run_succ, hrun, cc_step]
        rfl
      refine ⟨fill_scan t o1 p2, fill_scan t o2 p1, hstep, ?_, ?_⟩
      · exact goodarr_fill_step p2 o1 t p1.length hnd2 hlen2 (by omega) hG1
      · exact goodarr_fill_step p1 o2 t p1.length hnd1 rfl (by omega) hG2
    · have : K = t + 1 := by omega
      subst this
      exact cc_goodarr_at_flag p1 p2 hnd1 hp hne (t + 1) hK0 hKz hKmin hKn

theorem reduceOption_map_some (q : List City) : (q.map some).reduceOption = q := by
  induction q with
  | nil => rfl
  | cons a t ih => simp [ih]

/-- A completely filled invariant array is (the `some`-image of) a
permutation of the source list. -/
theorem goodarr_extract (src : List City) (o : List (Option City)) (n : ℕ)
    (hsnd : src.Nodup) (hslen : src.length = n) (hG : GoodArr src o n n) :
    ∃ q : List City, o = q.map some ∧ q.Perm src := by
  obtain ⟨hlen, hnn, hinj, hmem⟩ := hG
  have hallsome : ∀ a ∈ o, a ≠ none := by
    intro a ha
    obtain ⟨j, hj, he⟩ := (mem_opt_iff o a).mp ha
    rw [← he]
    exact (hnn j (by omega)).mpr (by omega)
  obtain ⟨q, hq⟩ : ∃ q : List City, o = q.map some := by
    clear hlen hnn hinj hmem
    induction o with
    | nil => exact ⟨[], rfl⟩
    | cons a t ih =>
      obtain ⟨v, hv⟩ := Option.ne_none_iff_exists.mp
        (hallsome a (List.mem_cons_self a t))
      obtain ⟨q, hq⟩ := ih (fun b hb => hallsome b (List.mem_cons_of_mem a hb))
      exact ⟨v :: q, by rw [List.map_cons, ← hv, hq]⟩
  have hond : o.Nodup := by
    rw [List.nodup_iff_injective_get]
    intro j1 j2 he
    have h1 : optAt o j1.1 = o.get j1 := by
      rw [optAt_eq_getElem o j1.1 j1.2, List.get_eq_getElem]
    have h2 : optAt o j2.1 = o.get j2 := by
      rw [optAt_eq_getElem o j2.1 j2.2, List.get_eq_getElem]
    apply Fin.ext
    exact hinj j1.1 j2.1 (by omega) (by omega) (by omega) (by omega)
      (by rw [h1, h2, he])
  have hqnd : q.Nodup := List.Nodup.of_map some (hq ▸ hond)
  have hqsub : q ⊆ src := by
    intro v hv
    have : some v ∈ o := by
      rw [hq]
      exact List.mem_map_of_mem some hv
    obtain ⟨j, hj, he⟩ := (mem_opt_iff o (some v)).mp this
    exact hmem j v (by omega) he
  have hqlen : q.length = n := by
    rw [hq, List.length_map] at hlen
    exact hlen
  refine ⟨q, hq, ?_⟩
  exact (hqnd.subperm hqsub).perm_of_length_le (by omega)

/-- Main correctness theorem of `cycle_cross`: on duplicate-free parents that
are permutations of the full city list `S`, both offspring contain no `None`
placeholder and are permutations of `S`. -/
theorem cycle_cross_perm (S p1 p2 : List City) (hS : S.Nodup)
    (h1 : p1.Perm S) (h2 : p2.Perm S) (hne : p1 ≠ []) :
    ∃ q1 q2 : List City,
      cycle_cross p1 p2 = [q1.map some, q2.map some] ∧ q1.Perm S ∧ q2.Perm S := by
  have hp : p2.Perm p1 := h2.trans h1.symm
  have hnd1 : p1.Nodup := (h1.nodup_iff).mpr hS
  obtain ⟨d, hd, hdn⟩ := orbI_exists_return p1 p2 hnd1 hp hne
  have hex : ∃ j, 0 < j ∧ orbI p1 p2 j = 0 := ⟨d, hd⟩
  set K := Nat.find hex with hKdef
  have hKspec := Nat.find_spec hex
  have hKmin : ∀ m, 0 < m → m < K → orbI p1 p2 m ≠ 0 := by
    intro m hm hmK hz
    exact Nat.find_min hex hmK ⟨hm, hz⟩
  have hKn : K ≤ p1.length := le_trans (Nat.find_min' hex hd) hdn
  obtain ⟨o1, o2, hrun, hG1, hG2⟩ :=
    cc_phase2 p1 p2 hnd1 hp hne K hKspec.1 hKspec.2 hKmin hKn
      p1.length hKn (le_refl _)
  obtain ⟨q1, hq1, hq1p⟩ := goodarr_extract p2 o1 p1.length
    (hp.nodup_iff.mpr hnd1) hp.length_eq hG1
  obtain ⟨q2, hq2, hq2p⟩ := goodarr_extract p1 o2 p1.length hnd1 rfl hG2
  refine ⟨q1, q2, ?_, hq1p.trans h2, hq2p.trans h1⟩
  rw [cycle_cross_eq_run, hrun]
  rw [← hq1, ← hq2]

theorem pidx_self (P : List City) (hnd : P.Nodup) (i : ℕ) (hi : i < P.length) :
    pidx P P i = i := by
  rw [pidx, cityAt_eq_getElem P i hi]
  exact List.indexOf_getElem hnd i hi

theorem orbI_self_one (P : List City) (hnd : P.Nodup) (hne : P ≠ []) :
    orbI P P 1 = 0 := by
  have h0 : (0 : ℕ) < P.length := List.length_pos.mpr hne
  have hp : pidx P P 0 = 0 := pidx_self P hnd 0 h0
  show (pidx P P)^[3 * 1] 0 = 0
  norm_num
  rw [hp, hp, hp]

/-- A filter keeping exactly the elements at positions below `m` is `take m`. -/
theorem filter_eq_take (p : City → Bool) :
    ∀ (L : List City) (m : ℕ),
      (∀ i, (hi : i < L.length) → (p (L[i]) = true ↔ i < m)) →
      L.filter p = L.take m := by
  intro L
  induction L with
  | nil => intro m _; simp
  | cons a t ih =>
    intro m hchar
    have h0 := hchar 0 (by simp)
    cases m with
    | zero =>
      rw [List.take_zero, List.filter_eq_nil_iff]
      intro x hx
      obtain ⟨i, hi, he⟩ := List.mem_iff_getElem.mp hx
      rw [← he]
      intro hc
      have := (hchar i hi).mp hc
      omega
    | succ m' =>
      have hpa : p a = true := by
        simp only [List.getElem_cons_zero] at h0
        exact h0.mpr (by omega)
      rw [List.filter_cons, if_pos hpa, List.take_succ_cons]
      congr 1
      apply ih
      intro i hi
      have := hchar (i + 1) (by simpa using hi)
      simp only [List.getElem_cons_succ] at this
      rw [this]
      omega

theorem getLastD_take (L : List City) (m : ℕ) (h1 : 1 ≤ m) (h2 : m ≤ L.length)
    (d : City) : (L.take m).getLastD d = L[m - 1] := by
  have hm1 : m - 1 < L.length := by omega
  have hsplit : L.take m = L.take (m - 1) ++ [L[m - 1]] := by
    rw [List.take_concat_get' L (m - 1) hm1]
    congr 1
    omega
  rw [hsplit, List.getLastD_concat]

/-- Pointwise description of the arrays of `cycle_cross P P` after `t ≥ 1`
iterations: position 0 holds the first city, positions `1 ≤ j < t` hold the
city at index `n - j`, later positions are still empty. -/
def selfD (P : List City) (t j : ℕ) : Option City :=
  if j = 0 then some (cityAt P 0)
  else if j < t then some (cityAt P (P.length - j)) else none

theorem cc_self_run (P : List City) (hnd : P.Nodup) (hne : P ≠ []) :
    ∀ t, 1 ≤ t → t ≤ P.length →
      ∃ o1 o2, cc_run P P t = (o1, o2, true) ∧
        o1.length = P.length ∧ o2.length = P.length ∧
        (∀ j, j < P.length → optAt o1 j = selfD P t j) ∧
        (∀ j, j < P.length → optAt o2 j = selfD P t j) := by
  have hp : P.Perm P := List.Perm.refl P
  have hn0 : 0 < P.length := List.length_pos.mpr hne
  intro t
  induction t with
  | zero => intro h _; omega
  | succ t ih =>
    intro h1 ht
    by_cases ht1 : 1 ≤ t
    · obtain ⟨o1, o2, hrun, hl1, hl2, ho1, ho2⟩ := ih ht1 (by omega)
      have htn : t < P.length := by omega
      have hmemchar : ∀ (o : List (Option City)), o.length = P.length →
          (∀ j, j < P.length → optAt o j = selfD P t j) →
          ∀ i, i < P.length →
            ((some (cityAt P i) ∈ o) ↔ (i = 0 ∨ P.length - t < i)) := by
        intro o hl ho i hi
        constructor
        · intro hin
          obtain ⟨j, hj, he⟩ := (mem_opt_iff o (some (cityAt P i))).mp hin
          rw [ho j (by omega)] at he
          rw [selfD] at he
          by_cases hj0 : j = 0
          · rw [if_pos hj0] at he
            left
            exact (cityAt_p2_inj P P hnd hp 0 i hn0 hi (Option.some_inj.mp he)).symm
          · rw [if_neg hj0] at he
            by_cases hjt : j < t
            · rw [if_pos hjt] at he
              have hnj : P.length - j < P.length := by omega
              have := cityAt_p2_inj P P hnd hp _ i hnj hi (Option.some_inj.mp he)
              right
              omega
            · rw [if_neg hjt] at he
              exact Option.noConfusion he
        · intro hcase
          rcases hcase with h0 | hgt
          · subst h0
            refine (mem_opt_iff o (some (cityAt P 0))).mpr ⟨0, by omega, ?_⟩
            rw [ho 0 (by omega), selfD, if_pos rfl]
          · refine (mem_opt_iff o (some (cityAt P i))).mpr
              ⟨P.length - i, by omega, ?_⟩
            rw [ho (P.length - i) (by omega), selfD,
              if_neg (by omega : ¬ P.length - i = 0), if_pos (by omega)]
            congr 2
            omega
      have hfilchar : ∀ (o : List (Option City)), o.length = P.length →
          (∀ j, j < P.length → optAt o j = selfD P t j) →
          P.filter (fun c => decide (some c ∉ o)) =
            (P.drop 1).take (P.length - t - 1 + 1) := by
        intro o hl ho
        have hd1 : P = cityAt P 0 :: P.drop 1 := by
          cases P with
          | nil => exact absurd rfl hne
          | cons a r => rfl
        conv_lhs => rw [hd1]
        rw [List.filter_cons]
        have h0in : some (cityAt P 0) ∈ o := by
          refine (mem_opt_iff o (some (cityAt P 0))).mpr ⟨0, by omega, ?_⟩
          rw [ho 0 (by omega), selfD, if_pos rfl]
        have hcond : ¬ (decide (some (cityAt P 0) ∉ o) = true) := by
          simp only [decide_eq_true_eq, not_not]
          exact h0in
        rw [if_neg hcond]
        apply filter_eq_take
        intro i hi
        have hi' : i + 1 < P.length := by
          have := List.length_drop 1 P
          omega
        have hdi : (P.drop 1)[i] = P[i + 1] := by
          rw [List.getElem_drop]
          congr 1
          omega
        rw [hdi]
        have hPi : P[i + 1] = cityAt P (i + 1) := (cityAt_eq_getElem P (i + 1) hi').symm
        rw [hPi]
        have := hmemchar o hl ho (i + 1) hi'
        simp only [decide_eq_true_eq]
        rw [this]
        omega
      have hstep : cc_run P P (t + 1) = (fill_scan t o1 P, fill_scan t o2 P, true) := by
        rw [cc_run_succ, hrun, cc_step]
        rfl
      have hm1 : 1 ≤ P.length - t - 1 + 1 := by omega
      have hm2 : P.length - t - 1 + 1 ≤ (P.drop 1).length := by
        rw [List.length_drop]
        omega
      have hwval : ((P.drop 1).take (P.length - t - 1 + 1)).getLastD dummyCity =
          cityAt P (P.length - t) := by
        rw [getLastD_take (P.drop 1) _ hm1 hm2 dummyCity]
        rw [cityAt_eq_getElem P (P.length - t) (by omega)]
        rw [List.getElem_drop]
        congr 1
        omega
      have hfill : ∀ (o : List (Option City)), o.length = P.length →
          (∀ j, j < P.length → optAt o j = selfD P t j) →
          fill_scan t o P = o.set t (some (cityAt P (P.length - t))) := by
        intro o hl ho
        have hslot : optAt o t = none := by
          rw [ho t htn, selfD, if_neg (by omega), if_neg (by omega)]
        have heq := fill_scan_eq P o t hnd (by omega) (Or.inl hslot)
        rw [hfilchar o hl ho] at heq
        have hne2 : (P.drop 1).take (P.length - t - 1 + 1) ≠ [] := by
          intro hc
          have := congrArg List.length hc
          rw [List.length_take, List.length_drop] at this
          simp at this
          omega
        rw [if_neg hne2, hwval] at heq
        exact heq
      refine ⟨o1.set t (some (cityAt P (P.length - t))),
        o2.set t (some (cityAt P (P.length - t))), ?_, by simpa using hl1,
        by simpa using hl2, ?_, ?_⟩
      · rw [hstep, hfill o1 hl1 ho1, hfill o2 hl2 ho2]
      · intro j hj
        by_cases hjt : j = t
        · subst hjt
          rw [optAt_set_self o1 _ _ (by omega), selfD,
            if_neg (by omega), if_pos (by omega)]
        · rw [optAt_set_ne o1 _ j _ (fun hc => hjt hc.symm), ho1 j hj, selfD, selfD]
          by_cases hj0 : j = 0
          · rw [if_pos hj0, if_pos hj0]
          · rw [if_neg hj0, if_neg hj0]
            by_cases hjlt : j < t
            · rw [if_pos hjlt, if_pos (by omega)]
            · rw [if_neg hjlt, if_neg (by omega)]
      · intro j hj
        by_cases hjt : j = t
        · subst hjt
          rw [optAt_set_self o2 _ _ (by omega), selfD,
            if_neg (by omega), if_pos (by omega)]
        · rw [optAt_set_ne o2 _ j _ (fun hc => hjt hc.symm), ho2 j hj, selfD, selfD]
          by_cases hj0 : j = 0
          · rw [if_pos hj0, if_pos hj0]
          · rw [if_neg hj0, if_neg hj0]
            by_cases hjlt : j < t
            · rw [if_pos hjlt, if_pos (by omega)]
            · rw [if_neg hjlt, if_neg (by omega)]
    · have ht0 : t = 0 := by omega
      subst ht0
      obtain ⟨o1, o2, hrun, hl1, hl2, ho1, ho2⟩ :=
        cc_at_flag P P hnd hp hne 1 (by omega) (orbI_self_one P hnd hne)
          (fun m hm hm1 => by omega) (by omega)
      refine ⟨o1, o2, hrun, hl1, hl2, ?_, ?_⟩
      · intro j hj
        rw [ho1 j hj, selfD]
        by_cases hj0 : j = 0
        · subst hj0
          rw [if_pos (by omega), if_pos rfl]
          simp [orbI]
        · rw [if_neg (by omega), if_neg hj0, if_neg (by omega)]
      · intro j hj
        rw [ho2 j hj, selfD]
        by_cases hj0 : j = 0
        · subst hj0
          rw [if_pos (by omega), if_pos rfl]
          have h00 : orbI P P 0 = 0 := rfl
          rw [h00, pidx_self P hnd 0 (List.length_pos.mpr hne),
            pidx_self P hnd 0 (List.length_pos.mpr hne)]
        · rw [if_neg (by omega), if_neg hj0, if_neg (by omega)]

/-- On two identical duplicate-free parents, `cycle_cross` closes its cycle
immediately and the fill loop then writes the remaining cities from last to
first: both offspring equal the first city followed by the reversed tail. -/
theorem cycle_cross_self (P : List City) (hnd : P.Nodup) (hne : P ≠ []) :
    cycle_cross P P =
      [(hd P :: P.tail.reverse).map some, (hd P :: P.tail.reverse).map some] := by
  have hn0 : 0 < P.length := List.length_pos.mpr hne
  obtain ⟨o1, o2, hrun, hl1, hl2, ho1, ho2⟩ :=
    cc_self_run P hnd hne P.length (by omega) (le_refl _)
  have htarget : ∀ (o : List (Option City)), o.length = P.length →
      (∀ j, j < P.length → optAt o j = selfD P P.length j) →
      o = (hd P :: P.tail.reverse).map some := by
    intro o hl ho
    have hlen_t : (hd P :: P.tail.reverse).length = P.length := by
      simp only [List.length_cons, List.length_reverse, List.length_tail]
      omega
    apply List.ext_getElem
    · rw [hl, List.length_map, hlen_t]
    · intro j h1 h2
      have hjP : j < P.length := by omega
      rw [← optAt_eq_getElem o j h1, ho j hjP, selfD, List.getElem_map]
      by_cases hj0 : j = 0
      · subst hj0
        rw [if_pos rfl]
        rfl
      · rw [if_neg hj0, if_pos hjP]
        obtain ⟨m, hm⟩ : ∃ m, j = m + 1 := ⟨j - 1, by omega⟩
        subst hm
        have hmrev : m < P.tail.reverse.length := by
          rw [List.length_reverse, List.length_tail]
          omega
        have hb1 : m + 1 < (hd P :: P.tail.reverse).length := by omega
        have e1 : (hd P :: P.tail.reverse)[m + 1] = P.tail.reverse[m] := by
          rw [List.getElem_cons_succ]
        rw [e1, List.getElem_reverse, List.getElem_tail,
          cityAt_eq_getElem P (P.length - (m + 1)) (by omega)]
        have hidx : P.tail.length - 1 - m + 1 = P.length - (m + 1) := by
          rw [List.length_tail]
          omega
        simp only [hidx]
  rw [cycle_cross_eq_run, hrun]
  rw [htarget o1 hl1 ho1, htarget o2 hl2 ho2]

/-- C6: crossing two identical duplicate-free parents (with segment draws in
the ranges `randrange` guarantees) returns offspring identical to the parent
as a set of cities and of equal fitness: `subset_cross` returns the parent
itself, and `cycle_cross` returns the parent's first city followed by the
reversed tail, a permutation of the parent with the same tour length. -/
theorem claim_C6 (P : List City) (hnd : P.Nodup) (hne : P ≠ []) (k s : ℕ)
    (hk2 : 2 ≤ k) (hk5 : k < P.length / 5) (hs : s < P.length - k) :
    (∀ o ∈ subset_cross P P k s, o = P) ∧
      cycle_cross P P =
        [(hd P :: P.tail.reverse).map some, (hd P :: P.tail.reverse).map some] ∧
      (hd P :: P.tail.reverse).Perm P ∧
      fitness_function (hd P :: P.tail.reverse) = fitness_function P := by
  have hks : s + k ≤ P.length := by
    have h5 : (k + 1) * 5 ≤ (P.length / 5) * 5 := Nat.mul_le_mul_right 5 (by omega)
    have h6 : (P.length / 5) * 5 ≤ P.length := Nat.div_mul_le_self P.length 5
    omega
  have hPdec : P = hd P :: P.tail := by
    cases P with
    | nil => exact absurd rfl hne
    | cons a t => rfl
  refine ⟨?_, cycle_cross_self P hnd hne, ?_, ?_⟩
  · intro o ho
    rw [subset_cross_self P hnd k s hks] at ho
    rcases List.mem_cons.mp ho with h | h
    · exact h
    · rcases List.mem_cons.mp h with h2 | h2
      · exact h2
      · simp at h2
  · conv_rhs => rw [hPdec]
    exact (List.reverse_perm P.tail).cons (hd P)
  · have hQrev : (hd P :: P.tail.reverse) = (P.rotate 1).reverse := by
      cases P with
      | nil => exact absurd rfl hne
      | cons a t =>
        rw [List.rotate_cons_succ, List.rotate_zero, List.reverse_append]
        rfl
    have hrne : P.rotate 1 ≠ [] := by
      intro hc
      have := List.length_rotate P 1
      rw [hc] at this
      simp at this
      exact hne (List.length_eq_zero.mp this.symm)
    rw [hQrev, fitness_reverse (P.rotate 1) hrne, fitness_rotate_one P hne]

/-- One pass of the tournament body (tsp.py lines 238-242 resp. 248-252): scan
a window `pop[rsi : rsi+subset]` of the population and keep the fittest
chromosome seen so far (state: current bound `high` and current parent). -/
noncomputable def tour_round (pop2 : List (List City)) (sz rsi : ℕ)
    (st : ℝ × List City) : ℝ × List City :=
  ((pop2.drop rsi).take sz).foldl
    (fun s t => if fitness_function t < s.1 then (fitness_function t, t) else s) st

/-- The `while not parent1` retry loop for the first parent (tsp.py lines
236-242): the list `rs` holds the successive draws of `random_start_index`;
`none` models a draw sequence under which the loop is still running (`high`
persists across retries, as in the source). -/
noncomputable def pick1 (pop2 : List (List City)) (sz : ℕ) :
    List ℕ → ℝ × List City → Option (ℝ × List City)
  | [], s => if s.2 ≠ [] then some s else none
  | r :: rs, s => if s.2 ≠ [] then some s else pick1 pop2 sz rs (tour_round pop2 sz r s)

/-- The single tournament pass for the second parent (tsp.py lines 244-252):
`parent2` starts as `parent1` and is replaced only by a window member of
smaller fitness that differs from `parent1`; there is no retry. -/
noncomputable def pick2 (pop2 : List (List City)) (sz : ℕ) (p1 : List City)
    (rsi2 : ℕ) : List City :=
  (((pop2.drop rsi2).take sz).foldl
    (fun s t => if fitness_function t < s.1 ∧ t ≠ p1 then (fitness_function t, t) else s)
    ((999999.99 : ℝ), p1)).2

/-- The tournament selection performed inside `crossover` (tsp.py lines
230-252): the window size is `len(pop[1]) / 5` (the length of the second
chromosome, as in the source), the first parent is drawn by the retry loop,
the second by a single pass. -/
noncomputable def select_parents (pop2 : List (List City)) (rs1 : List ℕ)
    (rsi2 : ℕ) : Option (List City × List City) :=
  let sz := (pop2.getD 1 []).length / 5
  match pick1 pop2 sz rs1 (999999.99, []) with
  | none => none
  | some st => some (st.2, pick2 pop2 sz st.2 rsi2)

/-- `crossover` (tsp.py lines 223-264): first the endpoint-stripping loop
mutates the population in place (returned as the second component), then
tournament selection picks the parents, then `rc` (= `random.randint(1,5)`)
chooses `subset_cross` (rc < 4) or `cycle_cross`; `k`, `s` are the draws made
inside `subset_cross`.  The `cycle_cross` offspring lists of optional cities
are de-optioned for the common chromosome type; by `cycle_cross_perm` this
drops nothing on permutation parents. -/
noncomputable def crossover (pop : List (List City)) (rs1 : List ℕ)
    (rsi2 rc k s : ℕ) : Option (List (List City) × List (List City)) :=
  let pop2 := pop.map strip_closed
  match select_parents pop2 rs1 rsi2 with
  | none => none
  | some (p1, p2) =>
    some (if rc < 4 then subset_cross p1 p2 k s
      else (cycle_cross p1 p2).map List.reduceOption, pop2)

theorem tour_round_mem (pop2 : List (List City)) (sz rsi : ℕ) (st : ℝ × List City)
    (h : st.2 = [] ∨ st.2 ∈ pop2) :
    (tour_round pop2 sz rsi st).2 = [] ∨ (tour_round pop2 sz rsi st).2 ∈ pop2 := by
  have hsub : ∀ t ∈ (pop2.drop rsi).take sz, t ∈ pop2 :=
    fun t ht => (pop2.drop_subset rsi) (((pop2.drop rsi).take_subset sz) ht)
  rw [tour_round]
  have haux : ∀ (w : List (List City)) (st : ℝ × List City), (∀ t ∈ w, t ∈ pop2) →
      (st.2 = [] ∨ st.2 ∈ pop2) →
      ((w.foldl (fun s t =>
        if fitness_function t < s.1 then (fitness_function t, t) else s) st).2 = [] ∨
        (w.foldl (fun s t =>
          if fitness_function t < s.1 then (fitness_function t, t) else s) st).2 ∈ pop2) := by
    intro w
    induction w with
    | nil => intro st _ hst; simpa using hst
    | cons a w ih =>
      intro st hw hst
      rw [List.foldl_cons]
      by_cases hc : fitness_function a < st.1
      · rw [if_pos hc]
        exact ih _ (fun t ht => hw t (List.mem_cons_of_mem a ht))
          (Or.inr (hw a (List.mem_cons_self a w)))
      · rw [if_neg hc]
        exact ih _ (fun t ht => hw t (List.mem_cons_of_mem a ht)) hst
  exact haux _ st hsub h

theorem pick1_some (pop2 : List (List City)) (sz : ℕ) :
    ∀ (rs : List ℕ) (st : ℝ × List City) (s' : ℝ × List City),
      (st.2 = [] ∨ st.2 ∈ pop2) → pick1 pop2 sz rs st = some s' →
      s'.2 ≠ [] ∧ s'.2 ∈ pop2 := by
  intro rs
  induction rs with
  | nil =>
    intro st s' hst h
    rw [pick1] at h
    by_cases hne : st.2 ≠ []
    · rw [if_pos hne] at h
      have : st = s' := Option.some_inj.mp h
      subst this
      rcases hst with h0 | h0
      · exact absurd h0 hne
      · exact ⟨hne, h0⟩
    · rw [if_neg hne] at h
      exact Option.noConfusion h
  | cons r rs ih =>
    intro st s' hst h
    rw [pick1] at h
    by_cases hne : st.2 ≠ []
    · rw [if_pos hne] at h
      have : st = s' := Option.some_inj.mp h
      subst this
      rcases hst with h0 | h0
      · exact absurd h0 hne
      · exact ⟨hne, h0⟩
    · rw [if_neg hne] at h
      exact ih (tour_round pop2 sz r st) s'
        (tour_round_mem pop2 sz r st hst) h

theorem pick2_mem (pop2 : List (List City)) (sz : ℕ) (p1 : List City) (rsi2 : ℕ) :
    pick2 pop2 sz p1 rsi2 = p1 ∨
      (pick2 pop2 sz p1 rsi2 ∈ pop2 ∧ pick2 pop2 sz p1 rsi2 ≠ p1) := by
  have hsub : ∀ t ∈ (pop2.drop rsi2).take sz, t ∈ pop2 :=
    fun t ht => (pop2.drop_subset rsi2) (((pop2.drop rsi2).take_subset sz) ht)
  rw [pick2]
  have haux : ∀ (w : List (List City)) (st : ℝ × List City),
      (∀ t ∈ w, t ∈ pop2) →
      (st.2 = p1 ∨ (st.2 ∈ pop2 ∧ st.2 ≠ p1)) →
      ((w.foldl (fun s t =>
        if fitness_function t < s.1 ∧ t ≠ p1 then (fitness_function t, t) else s) st).2 = p1 ∨
        ((w.foldl (fun s t =>
          if fitness_function t < s.1 ∧ t ≠ p1 then (fitness_function t, t) else s) st).2 ∈ pop2 ∧
          (w.foldl (fun s t =>
            if fitness_function t < s.1 ∧ t ≠ p1 then (fitness_function t, t) else s) st).2 ≠ p1)) := by
    intro w
    induction w with
    | nil => intro st _ hst; simpa using hst
    | cons a w ih =>
      intro st hw hst
      rw [List.foldl_cons]
      by_cases hc : fitness_function a < st.1 ∧ a ≠ p1
      · rw [if_pos hc]
        exact ih _ (fun t ht => hw t (List.mem_cons_of_mem a ht))
          (Or.inr ⟨hw a (List.mem_cons_self a w), hc.2⟩)
      · rw [if_neg hc]
        exact ih _ (fun t ht => hw t (List.mem_cons_of_mem a ht)) hst
  exact haux _ (999999.99, p1) hsub (Or.inl rfl)

theorem select_parents_some (pop2 : List (List City)) (rs1 : List ℕ) (rsi2 : ℕ)
    (p1 p2 : List City) (hsel : select_parents pop2 rs1 rsi2 = some (p1, p2)) :
    (p1 ≠ [] ∧ p1 ∈ pop2) ∧ (p2 = p1 ∨ (p2 ∈ pop2 ∧ p2 ≠ p1)) := by
  rw [select_parents] at hsel
  rcases hpick : pick1 pop2 ((pop2.getD 1 []).length / 5) rs1 (999999.99, []) with _ | st
  · rw [hpick] at hsel
    exact Option.noConfusion hsel
  · rw [hpick] at hsel
    have hst := pick1_some pop2 _ rs1 (999999.99, []) st (Or.inl rfl) hpick
    have hinj := Option.some_inj.mp hsel
    have hp1 : p1 = st.2 := (congrArg Prod.fst hinj).symm
    have hp2 : p2 = pick2 pop2 ((pop2.getD 1 []).length / 5) st.2 rsi2 :=
      (congrArg Prod.snd hinj).symm
    subst hp1
    rw [hp2]
    exact ⟨⟨hst.1, hst.2⟩, pick2_mem pop2 _ st.2 rsi2⟩

theorem fitness_five (a b c d e : City) :
    fitness_function [a, b, c, d, e] =
      gdist a b + gdist b c + gdist c d + gdist d e + gdist e a := by
  rw [fitness_char [a, b, c, d, e] (by simp)]
  have h1 : pathSum [a, b, c, d, e] =
      gdist a b + (gdist b c + (gdist c d + (gdist d e + pathSum [e]))) := rfl
  have h2 : pathSum [e] = 0 := rfl
  have h3 : lst [a, b, c, d, e] = e := rfl
  have h4 : hd [a, b, c, d, e] = a := rfl
  rw [h1, h2, h3, h4]
  ring

def cityD : City := ⟨4, 2, 0⟩

def cityE : City := ⟨5, 3, 0⟩

/-- A five-city chromosome (collinear cities, so its fitness evaluates in ℚ). -/
def P5 : List City := [cityA, cityB, cityD, cityE, cityC]

/-- A second, distinct chromosome over the same cities. -/
def Q5 : List City := [cityB, cityA, cityD, cityE, cityC]

/-- Population with (at least) two distinct chromosomes; `pop[1]` has length 5,
so the tournament window size is 5 / 5 = 1. -/
def popC5 : List (List City) := [P5, P5, Q5]

theorem fit_P5 : fitness_function P5 = 10 := by
  rw [show P5 = [cityA, cityB, cityD, cityE, cityC] from rfl, fitness_five,
    gdist_collinear cityA cityB rfl (by decide),
    gdist_collinear cityB cityD rfl (by decide),
    gdist_collinear cityD cityE rfl (by decide),
    gdist_collinear cityE cityC rfl (by decide),
    gdist_collinear cityC cityA rfl (by decide)]
  norm_num [cityA, cityB, cityC, cityD, cityE]

/-- With window size 1 and both window draws landing on `pop[0] = P5`, the
first tournament selects `P5` and the second pass finds no window member
different from it, so `parent2` keeps its initialisation `parent2 = parent1`. -/
theorem selC5_eval : select_parents popC5 [0] 0 = some (P5, P5) := by
  have hlt : fitness_function P5 < 999999.99 := by
    rw [fit_P5]; norm_num
  have htr : tour_round popC5 1 0 ((999999.99 : ℝ), ([] : List City)) =
      (fitness_function P5, P5) := by
    rw [tour_round]
    have hw : (popC5.drop 0).take 1 = [P5] := rfl
    rw [hw, List.foldl_cons, List.foldl_nil]
    show (if fitness_function P5 < 999999.99 then (fitness_function P5, P5)
      else ((999999.99 : ℝ), ([] : List City))) = (fitness_function P5, P5)
    rw [if_pos hlt]
  have hp1 : pick1 popC5 1 [0] ((999999.99 : ℝ), ([] : List City)) =
      some (fitness_function P5, P5) := by
    rw [pick1]
    rw [if_neg (by simp)]
    rw [htr, pick1]
    rw [if_pos (by simp [P5])]
  have hp2 : pick2 popC5 1 P5 0 = P5 := by
    rw [pick2]
    have hw : (popC5.drop 0).take 1 = [P5] := rfl
    rw [hw, List.foldl_cons, List.foldl_nil]
    show (if fitness_function P5 < 999999.99 ∧ P5 ≠ P5 then (fitness_function P5, P5)
      else ((999999.99 : ℝ), P5)).2 = P5
    rw [if_neg (fun h => h.2 rfl)]
  rw [select_parents]
  show (match pick1 popC5 1 [0] ((999999.99 : ℝ), ([] : List City)) with
    | none => none
    | some st => some (st.2, pick2 popC5 1 st.2 0)) = some (P5, P5)
  rw [hp1]
  show some (P5, pick2 popC5 1 P5 0) = some (P5, P5)
  rw [hp2]

/-- C5 counterexample: `popC5` holds two distinct chromosomes (`P5` and `Q5`),
yet tournament selection returns the same chromosome for both parents — the
second pass has no retry; when no window member differs from `parent1`,
`parent2` stays equal to `parent1` (tsp.py line 246). -/
theorem claim_C5_counterexample :
    (P5 ∈ popC5 ∧ Q5 ∈ popC5 ∧ P5 ≠ Q5) ∧
    select_parents popC5 [0] 0 = some (P5, P5) :=
  ⟨⟨by simp [popC5], by simp [popC5], by decide⟩, selC5_eval⟩

/-- C5 (amended): whenever the tournament selection inside `crossover`
returns, the first parent is a nonempty member of the (stripped) population;
the second parent is fully defined (nonempty when all chromosomes are), but it
is NOT guaranteed distinct from the first: it either equals `parent1` (the
fallback initialisation, taken whenever no window member of smaller fitness
differs from `parent1`) or is a member distinct from `parent1`.  There is no
retry for the second draw. -/
theorem claim_C5_amended (pop2 : List (List City)) (rs1 : List ℕ) (rsi2 : ℕ)
    (p1 p2 : List City) (hsel : select_parents pop2 rs1 rsi2 = some (p1, p2))
    (hne : ∀ c ∈ pop2, c ≠ []) :
    (p1 ≠ [] ∧ p1 ∈ pop2) ∧ p2 ≠ [] ∧ (p2 = p1 ∨ (p2 ∈ pop2 ∧ p2 ≠ p1)) := by
  obtain ⟨h1, h2⟩ := select_parents_some pop2 rs1 rsi2 p1 p2 hsel
  refine ⟨h1, ?_, h2⟩
  rcases h2 with h | h
  · rw [h]; exact h1.1
  · exact hne p2 h.1

theorem claim_C5_amended_witness :
    (select_parents popC5 [0] 0 = some (P5, P5) ∧ ∀ c ∈ popC5, c ≠ []) ∧
    ((P5 ≠ [] ∧ P5 ∈ popC5) ∧ P5 ≠ [] ∧ (P5 = P5 ∨ (P5 ∈ popC5 ∧ P5 ≠ P5))) :=
  ⟨⟨selC5_eval, by decide⟩,
    claim_C5_amended popC5 [0] 0 P5 P5 selC5_eval (by decide)⟩

/-- Inversion for `crossover`: when it returns, the population it hands back
is the endpoint-stripped input population (the in-place effect of the
"Correcting all mismatched lengths" loop, tsp.py lines 225-228). -/
theorem crossover_some_pop (pop : List (List City)) (rs1 : List ℕ) (rsi2 rc k s : ℕ)
    (off pop2 : List (List City)) (h : crossover pop rs1 rsi2 rc k s = some (off, pop2)) :
    pop2 = pop.map strip_closed := by
  rw [crossover] at h
  rcases hsel : select_parents (pop.map strip_closed) rs1 rsi2 with _ | ⟨p1, p2⟩ <;>
    rw [hsel] at h
  · exact Option.noConfusion h
  · have h2 := Option.some_inj.mp h
    exact (congrArg Prod.snd h2).symm

/-- C9 counterexample: `mutate_swap` swaps inside the chromosome aliased at
the drawn population slot, so after the call the chromosome stored at that
slot of the population differs from the one stored there before (here: the
population `popC5 = [P5, P5, Q5]`, slot 0, swap indices 1 and 2 — all three
draws in the ranges Python's `randrange` calls produce). -/
theorem claim_C9_counterexample :
    (mutate_swap popC5 0 1 2).2.getD 0 [] ≠ popC5.getD 0 [] := by decide

/-- C9 (amended): both operators mutate the population being read.
`mutate_swap` overwrites the drawn slot with the swapped chromosome (only the
other slots keep their previous contents), and `crossover` hands back the
population with every closed chromosome stripped of its last entry in place;
stripping is the identity only on duplicate-free chromosomes of length ≥ 2. -/
theorem claim_C9_amended (pop : List (List City)) (im i1 i2 : ℕ)
    (rs1 : List ℕ) (rsi2 rc k s : ℕ) (off pop2 : List (List City))
    (hcr : crossover pop rs1 rsi2 rc k s = some (off, pop2)) :
    ((mutate_swap pop im i1 i2).2 = pop.set im (list_swap (pop.getD im []) i1 i2) ∧
      ∀ j, j ≠ im → (mutate_swap pop im i1 i2).2.getD j [] = pop.getD j []) ∧
    pop2 = pop.map strip_closed ∧
    (∀ p ∈ pop, p.Nodup → 2 ≤ p.length → strip_closed p = p) := by
  refine ⟨⟨rfl, ?_⟩, crossover_some_pop pop rs1 rsi2 rc k s off pop2 hcr,
    fun p _ hnd hlen => strip_closed_id p hnd hlen⟩
  intro j hj
  show (pop.set im (list_swap (pop.getD im []) i1 i2)).getD j [] = pop.getD j []
  rw [List.getD_eq_getElem?_getD, List.getD_eq_getElem?_getD,
    List.getElem?_set_ne (Ne.symm hj)]
  rw [List.getD_eq_getElem?_getD]

/-- A concrete returning run of `crossover` on `popC5` (no chromosome is
closed, window draws land on `P5` twice, `rc = 4` selects `cycle_cross`). -/
theorem crossC9_eval : crossover popC5 [0] 0 4 2 0 =
    some ((cycle_cross P5 P5).map List.reduceOption, popC5) := by
  rw [crossover]
  show (match select_parents popC5 [0] 0 with
    | none => none
    | some (p1, p2) =>
      some (if (4 : ℕ) < 4 then subset_cross p1 p2 2 0
        else (cycle_cross p1 p2).map List.reduceOption, popC5)) =
    some ((cycle_cross P5 P5).map List.reduceOption, popC5)
  rw [selC5_eval]
  rfl

theorem claim_C9_amended_witness :
    crossover popC5 [0] 0 4 2 0 = some ((cycle_cross P5 P5).map List.reduceOption, popC5) ∧
    (((mutate_swap popC5 0 1 2).2 = popC5.set 0 (list_swap (popC5.getD 0 []) 1 2) ∧
      ∀ j, j ≠ 0 → (mutate_swap popC5 0 1 2).2.getD j [] = popC5.getD j []) ∧
     popC5 = popC5.map strip_closed ∧
     (∀ p ∈ popC5, p.Nodup → 2 ≤ p.length → strip_closed p = p)) :=
  ⟨crossC9_eval,
    claim_C9_amended popC5 0 1 2 [0] 0 4 2 0
      ((cycle_cross P5 P5).map List.reduceOption) popC5 crossC9_eval⟩

/-- Inversion for `crossover`: when it returns, the offspring pair is the
chosen crossover operator applied to the two selected parents (`rc < 4`
selects `subset_cross`, otherwise `cycle_cross`, tsp.py lines 257-262). -/
theorem crossover_some_off (pop : List (List City)) (rs1 : List ℕ) (rsi2 rc k s : ℕ)
    (off pop2 : List (List City)) (h : crossover pop rs1 rsi2 rc k s = some (off, pop2)) :
    ∃ p1 p2 : List City, select_parents (pop.map strip_closed) rs1 rsi2 = some (p1, p2) ∧
      off = if rc < 4 then subset_cross p1 p2 k s
        else (cycle_cross p1 p2).map List.reduceOption := by
  rw [crossover] at h
  rcases hsel : select_parents (pop.map strip_closed) rs1 rsi2 with _ | ⟨p1, p2⟩ <;>
    rw [hsel] at h
  · exact Option.noConfusion h
  · have h2 := Option.some_inj.mp h
    exact ⟨p1, p2, rfl, (congrArg Prod.fst h2).symm⟩

/-- The random draws consumed by one iteration of the `next_gen` loop
(tsp.py lines 273-283): either `rand > 10` and `crossover` runs (`rs1` the
retry draws for parent 1, `rsi2` the window draw for parent 2, `rc` the
operator draw, `k`/`s` the draws inside `subset_cross`), or two `mutate_swap`
calls run (respective slot and swap-index draws). -/
inductive NGDraw where
  | cross (rs1 : List ℕ) (rsi2 rc k s : ℕ) : NGDraw
  | mutSwap (im1 i1 i2 im2 j1 j2 : ℕ) : NGDraw

/-- The ranges Python's `randrange` calls guarantee for the draws, for
chromosomes of length `n` in a population of length `L`:
`random.randrange(2, n/5)` gives `2 ≤ k < n/5`, `random.randrange(0, n-k)`
gives `s < n-k`, `random.randrange(0, L-1)` gives `im < L`, and
`random.randrange(1, n-1)` gives `1 ≤ i < n-1`. -/
def NGDraw.Valid (n L : ℕ) : NGDraw → Prop
  | .cross _ _ _ k s => 2 ≤ k ∧ k < n / 5 ∧ s < n - k
  | .mutSwap im1 i1 i2 im2 j1 j2 =>
      im1 < L ∧ 1 ≤ i1 ∧ i1 < n - 1 ∧ 1 ≤ i2 ∧ i2 < n - 1 ∧
      im2 < L ∧ 1 ≤ j1 ∧ j1 < n - 1 ∧ 1 ≤ j2 ∧ j2 < n - 1

instance (n L : ℕ) (d : NGDraw) : Decidable (NGDraw.Valid n L d) :=
  match d with
  | .cross _ _ _ k s => inferInstanceAs (Decidable (2 ≤ k ∧ k < n / 5 ∧ s < n - k))
  | .mutSwap im1 i1 i2 im2 j1 j2 =>
      inferInstanceAs (Decidable (im1 < L ∧ 1 ≤ i1 ∧ i1 < n - 1 ∧ 1 ≤ i2 ∧ i2 < n - 1 ∧
        im2 < L ∧ 1 ≤ j1 ∧ j1 < n - 1 ∧ 1 ≤ j2 ∧ j2 < n - 1))

/-- One iteration of the `next_gen` loop (tsp.py lines 273-283), state =
(current population, generation built so far).  Both operators mutate the
population in place, so the population component evolves across iterations.
A `cross` draw whose selection retry loop never terminates (modelled by
`crossover` returning `none`) corresponds to a non-returning run and
produces nothing. -/
noncomputable def ng_step (st : List (List City) × List (List City)) :
    NGDraw → List (List City) × List (List City)
  | .cross rs1 rsi2 rc k s =>
    match crossover st.1 rs1 rsi2 rc k s with
    | none => st
    | some (off, pop2) => (pop2, st.2 ++ off)
  | .mutSwap im1 i1 i2 im2 j1 j2 =>
    let r1 := mutate_swap st.1 im1 i1 i2
    let r2 := mutate_swap r1.2 im2 j1 j2
    (r2.2, st.2 ++ [r1.1, r2.1])

/-- `next_gen` (tsp.py lines 266-285): fold the per-iteration step over the
draw list (25 draws in the source; any number here) and return the built
generation. -/
noncomputable def next_gen (pop : List (List City)) (draws : List NGDraw) :
    List (List City) :=
  (draws.foldl ng_step (pop, [])).2

theorem ng_step_cross (st : List (List City) × List (List City))
    (rs1 : List ℕ) (rsi2 rc k s : ℕ) :
    ng_step st (.cross rs1 rsi2 rc k s) =
      match crossover st.1 rs1 rsi2 rc k s with
      | none => st
      | some (off, pop2) => (pop2, st.2 ++ off) := rfl

theorem ng_step_mut (st : List (List City) × List (List City))
    (im1 i1 i2 im2 j1 j2 : ℕ) :
    ng_step st (.mutSwap im1 i1 i2 im2 j1 j2) =
      ((mutate_swap (mutate_swap st.1 im1 i1 i2).2 im2 j1 j2).2,
        st.2 ++ [(mutate_swap st.1 im1 i1 i2).1,
          (mutate_swap (mutate_swap st.1 im1 i1 i2).2 im2 j1 j2).1]) := rfl

theorem getD_mem (l : List (List City)) (i : ℕ) (h : i < l.length) :
    l.getD i [] ∈ l := by
  rw [List.getD_eq_getElem?_getD, List.getElem?_eq_getElem h]
  simp only [Option.getD_some]
  exact List.getElem_mem h

/-- One `next_gen` iteration preserves the permutation invariant: if every
chromosome of the current population and of the generation built so far is a
permutation of the city set `S`, so is every chromosome afterwards, and the
population length is unchanged. -/
theorem ng_step_inv (S : List City) (hS : S.Nodup) (L : ℕ)
    (st : List (List City) × List (List City)) (d : NGDraw)
    (hv : d.Valid S.length L)
    (hpop : ∀ p ∈ st.1, p.Perm S) (hgen : ∀ p ∈ st.2, p.Perm S)
    (hlen : st.1.length = L) :
    (∀ p ∈ (ng_step st d).1, p.Perm S) ∧ (∀ p ∈ (ng_step st d).2, p.Perm S) ∧
      (ng_step st d).1.length = L := by
  cases d with
  | cross rs1 rsi2 rc k s =>
    obtain ⟨hk2, hk5, hs⟩ := hv
    have hn15 : 15 ≤ S.length := by omega
    have hstrip : ∀ p ∈ st.1.map strip_closed, p.Perm S := by
      intro p hp
      obtain ⟨q, hq, rfl⟩ := List.mem_map.mp hp
      have hqp := hpop q hq
      rw [strip_closed_id q (hqp.nodup_iff.mpr hS) (by rw [hqp.length_eq]; omega)]
      exact hqp
    rcases hcr : crossover st.1 rs1 rsi2 rc k s with _ | ⟨off, pop2⟩
    · simp only [ng_step_cross, hcr]
      exact ⟨hpop, hgen, hlen⟩
    · have hpop2 : pop2 = st.1.map strip_closed :=
        crossover_some_pop st.1 rs1 rsi2 rc k s off pop2 hcr
      obtain ⟨p1, p2, hsel, hoff⟩ := crossover_some_off st.1 rs1 rsi2 rc k s off pop2 hcr
      have hsp := select_parents_some (st.1.map strip_closed) rs1 rsi2 p1 p2 hsel
      have hp1S : p1.Perm S := hstrip p1 hsp.1.2
      have hp2S : p2.Perm S := by
        rcases hsp.2 with h | h
        · rw [h]; exact hp1S
        · exact hstrip p2 h.1
      have hoffS : ∀ o ∈ off, o.Perm S := by
        rw [hoff]
        by_cases hrc : rc < 4
        · rw [if_pos hrc]
          exact subset_cross_perm S p1 p2 k s hS hp1S hp2S (by omega)
        · rw [if_neg hrc]
          obtain ⟨q1, q2, hcc, hq1, hq2⟩ := cycle_cross_perm S p1 p2 hS hp1S hp2S hsp.1.1
          rw [hcc]
          have hred : [q1.map some, q2.map some].map List.reduceOption = [q1, q2] := by
            simp only [List.map_cons, List.map_nil, reduceOption_map_some]
          rw [hred]
          intro o ho
          simp only [List.mem_cons, List.not_mem_nil, or_false] at ho
          rcases ho with rfl | rfl
          exacts [hq1, hq2]
      simp only [ng_step_cross, hcr]
      refine ⟨?_, ?_, ?_⟩
      · rw [hpop2]; exact hstrip
      · intro p hp
        rcases List.mem_append.mp hp with h | h
        · exact hgen p h
        · exact hoffS p h
      · rw [hpop2, List.length_map]; exact hlen
  | mutSwap im1 i1 i2 im2 j1 j2 =>
    obtain ⟨him1, hi11, hi12, hi21, hi22, him2, hj11, hj12, hj21, hj22⟩ := hv
    have hmem1 : st.1.getD im1 [] ∈ st.1 := getD_mem st.1 im1 (by omega)
    have hsel1 : (st.1.getD im1 []).Perm S := hpop _ hmem1
    have hm1 : (mutate_swap st.1 im1 i1 i2).1.Perm S :=
      (mutate_swap_fst_perm st.1 im1 i1 i2
        (by rw [hsel1.length_eq]; omega) (by rw [hsel1.length_eq]; omega)).trans hsel1
    have hms1 : (mutate_swap st.1 im1 i1 i2).2 =
        st.1.set im1 ((mutate_swap st.1 im1 i1 i2).1) := rfl
    have hpop1 : ∀ p ∈ (mutate_swap st.1 im1 i1 i2).2, p.Perm S := by
      intro p hp
      rw [hms1] at hp
      rcases List.mem_or_eq_of_mem_set hp with h | h
      · exact hpop p h
      · rw [h]; exact hm1
    have hlen1 : (mutate_swap st.1 im1 i1 i2).2.length = L := by
      rw [hms1, List.length_set]; exact hlen
    have hmem2 : (mutate_swap st.1 im1 i1 i2).2.getD im2 [] ∈ (mutate_swap st.1 im1 i1 i2).2 :=
      getD_mem _ im2 (by omega)
    have hsel2 : ((mutate_swap st.1 im1 i1 i2).2.getD im2 []).Perm S := hpop1 _ hmem2
    have hm2 : (mutate_swap (mutate_swap st.1 im1 i1 i2).2 im2 j1 j2).1.Perm S :=
      (mutate_swap_fst_perm (mutate_swap st.1 im1 i1 i2).2 im2 j1 j2
        (by rw [hsel2.length_eq]; omega) (by rw [hsel2.length_eq]; omega)).trans hsel2
    have hms2 : (mutate_swap (mutate_swap st.1 im1 i1 i2).2 im2 j1 j2).2 =
        (mutate_swap st.1 im1 i1 i2).2.set im2
          ((mutate_swap (mutate_swap st.1 im1 i1 i2).2 im2 j1 j2).1) := rfl
    simp only [ng_step_mut]
    refine ⟨?_, ?_, ?_⟩
    · intro p hp
      rw [hms2] at hp
      rcases List.mem_or_eq_of_mem_set hp with h | h
      · exact hpop1 p h
      · rw [h]; exact hm2
    · intro p hp
      rcases List.mem_append.mp hp with h | h
      · exact hgen p h
      · simp only [List.mem_cons, List.not_mem_nil, or_false] at h
        rcases h with rfl | rfl
        exacts [hm1, hm2]
    · rw [hms2, List.length_set]; exact hlen1

/-- C1: on a population of permutations of the duplicate-free city set `S`,
every chromosome of the generation built by `next_gen` — whatever the draws,
as long as each draw lies in the ranges Python's `randrange` calls produce —
is again a permutation of `S`: no city duplicated, no city omitted, no
undefined entry. -/
theorem claim_C1 (S : List City) (hS : S.Nodup) (pop : List (List City))
    (draws : List NGDraw)
    (hpop : ∀ p ∈ pop, p.Perm S)
    (hv : ∀ d ∈ draws, d.Valid S.length pop.length) :
    ∀ c ∈ next_gen pop draws, c.Perm S := by
  have main : ∀ (ds : List NGDraw) (st : List (List City) × List (List City)),
      (∀ d ∈ ds, d.Valid S.length pop.length) →
      (∀ p ∈ st.1, p.Perm S) → (∀ p ∈ st.2, p.Perm S) → st.1.length = pop.length →
      ∀ p ∈ (ds.foldl ng_step st).2, p.Perm S := by
    intro ds
    induction ds with
    | nil =>
      intro st _ _ hgen _
      simpa using hgen
    | cons d ds ih =>
      intro st hvd hp hg hl
      rw [List.foldl_cons]
      obtain ⟨h1, h2, h3⟩ :=
        ng_step_inv S hS pop.length st d (hvd d (List.mem_cons_self d ds)) hp hg hl
      exact ih _ (fun e he => hvd e (List.mem_cons_of_mem d he)) h1 h2 h3
  exact main draws (pop, []) hv hpop (by simp) rfl

def S4 : List City := [cityA, cityB, cityD, cityE]

def pop4 : List (List City) :=
  [[cityA, cityB, cityD, cityE], [cityB, cityA, cityD, cityE]]

def draws4 : List NGDraw := [.mutSwap 0 1 2 1 2 1]

theorem claim_C1_witness :
    (S4.Nodup ∧ (∀ p ∈ pop4, p.Perm S4) ∧
      (∀ d ∈ draws4, d.Valid S4.length pop4.length)) ∧
    (∀ c ∈ next_gen pop4 draws4, c.Perm S4) :=
  ⟨⟨by decide, by decide, by decide⟩,
    claim_C1 S4 (by decide) pop4 draws4 (by decide) (by decide)⟩

/-- Fifteen distinct collinear cities: the smallest chromosome length for
which `random.randrange(2, len/5)` inside `subset_cross` has a nonempty
range. -/
def P15 : List City :=
  [⟨1, 1, 0⟩, ⟨2, 2, 0⟩, ⟨3, 3, 0⟩, ⟨4, 4, 0⟩, ⟨5, 5, 0⟩,
   ⟨6, 6, 0⟩, ⟨7, 7, 0⟩, ⟨8, 8, 0⟩, ⟨9, 9, 0⟩, ⟨10, 10, 0⟩,
   ⟨11, 11, 0⟩, ⟨12, 12, 0⟩, ⟨13, 13, 0⟩, ⟨14, 14, 0⟩, ⟨15, 15, 0⟩]

theorem claim_C6_witness :
    (P15.Nodup ∧ P15 ≠ [] ∧ 2 ≤ 2 ∧ 2 < P15.length / 5 ∧ 0 < P15.length - 2) ∧
    ((∀ o ∈ subset_cross P15 P15 2 0, o = P15) ∧
      cycle_cross P15 P15 =
        [(hd P15 :: P15.tail.reverse).map some, (hd P15 :: P15.tail.reverse).map some] ∧
      (hd P15 :: P15.tail.reverse).Perm P15 ∧
      fitness_function (hd P15 :: P15.tail.reverse) = fitness_function P15) :=
  ⟨⟨by decide, by decide, by decide, by decide, by decide⟩,
    claim_C6 P15 (by decide) (by decide) 2 0 (by decide) (by decide) (by decide)⟩
